import Mathlib

/-!
# Verification of the `atomic-db-interface` in-memory store and LRU cache decorator

Shallow embedding of `src/index.ts`:

* `AtomicMemoryDb` (the in-memory implementation of `AtomicDbInterface`) is
  modelled as explicit state passing over `DbState`.  JavaScript `Map`s are
  modelled as insertion-ordered association lists (`mapGet` / `mapSet` /
  `mapDel` reproduce `Map.get` / `Map.set` / `Map.delete`: `set` of an existing
  key updates in place keeping its position, `set` of a new key appends).
* `Date.now()` is ambient in the source; every time-dependent operation takes
  the current epoch-seconds value `now` as an explicit argument.
* Lock versions are opaque tokens generated by `monotonicFactory()()` (a ULID:
  unique, compared only with `===`).  They are modelled as naturals drawn from
  a generation counter `ctr` carried in the state; each generated version is
  the current counter value and the counter then increments, so generated
  versions are pairwise distinct and distinct from all previously generated
  ones.
* Optional fields (`data?`, `ttl?`, `sk?`, `limit?`) become `Option`.
  JavaScript truthiness tests on them (`!ttl`, `!query.sk`, `query.limit ?`)
  are translated faithfully: `none` *and* the falsy values `some 0` / `some ""`
  take the falsy branch.
* `localeCompare` and `String.prototype.startsWith` are modelled as
  code-point-wise lexicographic comparison (`charListLt`) and list prefix test
  on the strings' characters.
* Exceptions become `Except DbError`; operations that mutate return the
  post-state together with the outcome (the state they return on an error is
  the state at the moment the source `throw`s).
-/

/-- `AtomicDbItemKey` from the source: primary key `pk`, sort key `sk`. -/
structure AtomicDbItemKey where
  pk : String
  sk : String
deriving DecidableEq

/-- `AtomicDbItem` from the source.  The caller-defined `data?: any` payload is
opaque to the store; it is modelled as an optional string. -/
structure AtomicDbItem where
  pk : String
  sk : String
  data : Option String := none
  ttl : Option Nat := none
deriving DecidableEq

/-- `AtomicDbItemLock` from the source; `version` is the opaque token
(modelled as a natural, see the file header). -/
structure AtomicDbItemLock where
  pk : String
  sk : String
  version : Nat
  ttl : Option Nat := none
deriving DecidableEq

/-- `AtomicDbQuery` from the source. -/
structure AtomicDbQuery where
  pk : String
  sk : Option String := none
  reverse : Bool := false
  limit : Option Nat := none
deriving DecidableEq

/-- Error kinds: `RaceCondition`, the `Error` thrown on an items/locks length
mismatch, and an arbitrary failure surfaced by a wrapped backend. -/
inductive DbError where
  | raceCondition
  | invalidArgument
  | backendFailure
deriving DecidableEq

instance exceptDecEq {ε α : Type} [DecidableEq ε] [DecidableEq α] :
    DecidableEq (Except ε α)
  | Except.error e1, Except.error e2 =>
    if h : e1 = e2 then isTrue (by rw [h])
    else isFalse (fun hh => by cases hh; exact h rfl)
  | Except.error _, Except.ok _ => isFalse (fun hh => by cases hh)
  | Except.ok _, Except.error _ => isFalse (fun hh => by cases hh)
  | Except.ok a1, Except.ok a2 =>
    if h : a1 = a2 then isTrue (by rw [h])
    else isFalse (fun hh => by cases hh; exact h rfl)

/-- `Map.get`: first entry with the given key. -/
def mapGet (k : String) : List (String × α) → Option α
  | [] => none
  | e :: rest => if e.1 = k then some e.2 else mapGet k rest

/-- `Map.set`: update in place if the key is present, else append. -/
def mapSet (k : String) (v : α) : List (String × α) → List (String × α)
  | [] => [(k, v)]
  | e :: rest => if e.1 = k then (k, v) :: rest else e :: mapSet k v rest

/-- `Map.delete`: remove the entry with the given key. -/
def mapDel (k : String) : List (String × α) → List (String × α)
  | [] => []
  | e :: rest => if e.1 = k then rest else e :: mapDel k rest

/-- A JavaScript `Map` never holds two entries with the same key; association
lists reachable through `mapSet`/`mapDel` keep this invariant. -/
def nodupKeys (m : List (String × α)) : Prop := (m.map (·.1)).Nodup

instance nodupKeysDec {α : Type} (m : List (String × α)) :
    Decidable (nodupKeys m) :=
  inferInstanceAs (Decidable ((m.map (fun e : String × α => e.1)).Nodup))

namespace AtomicMemoryDb

/-- The private state of `AtomicMemoryDb`: the `items` map, the `locks` map,
and the version-generation counter (see the file header). -/
structure DbState where
  items : List (String × AtomicDbItem)
  locks : List (String × AtomicDbItemLock)
  ctr : Nat := 0
deriving DecidableEq

/-- `new AtomicMemoryDb()`. -/
def emptyDb : DbState := { items := [], locks := [], ctr := 0 }

/-- `getKey`: serialize a two-part key as `` `${key.pk}:${key.sk}` ``. -/
def getKey (k : AtomicDbItemKey) : String := k.pk ++ ":" ++ k.sk

/-- The serialized storage key of an item (items extend `AtomicDbItemKey`). -/
def keyOfItem (it : AtomicDbItem) : String := getKey ⟨it.pk, it.sk⟩

/-- The serialized storage key of a lock. -/
def keyOfLock (l : AtomicDbItemLock) : String := getKey ⟨l.pk, l.sk⟩

/-- `isExpired(ttl)`.  `if (!ttl) return false` takes the falsy branch for an
absent ttl *and* for `ttl === 0`; otherwise `now > ttl` (strict). -/
def isExpired (now : Nat) : Option Nat → Bool
  | none => false
  | some t => if t = 0 then false else decide (now > t)

/-- `cleanExpired(this.items, k)`: delete the entry if present and expired;
returns the updated map and whether a deletion happened. -/
def cleanExpiredItems (now : Nat) (m : List (String × AtomicDbItem)) (k : String) :
    List (String × AtomicDbItem) × Bool :=
  match mapGet k m with
  | some it => if isExpired now it.ttl then (mapDel k m, true) else (m, false)
  | none => (m, false)

/-- `AtomicMemoryDb.get`. -/
def get (now : Nat) (st : DbState) (key : AtomicDbItemKey) :
    DbState × Option AtomicDbItem :=
  let k := getKey key
  let cleaned := cleanExpiredItems now st.items k
  if cleaned.2 then ({ st with items := cleaned.1 }, none)
  else ({ st with items := cleaned.1 }, mapGet k cleaned.1)

/-- `AtomicMemoryDb.getMany`: `Promise.all(keys.map((key) => this.get(key)))`;
each `get` body is synchronous, so the effects happen in input order. -/
def getMany (now : Nat) (st : DbState) : List AtomicDbItemKey →
    DbState × List (Option AtomicDbItem)
  | [] => (st, [])
  | key :: rest =>
    let r := get now st key
    let rs := getMany now r.1 rest
    (rs.1, r.2 :: rs.2)

/-- The refresh test inside `getLock`:
`!existingLock.ttl || existingLock.ttl - now < 60 * 60`
(`none` and `some 0` are falsy; the subtraction is JavaScript number
arithmetic, so `ttl - now < 3600` is `t < now + 3600` over the integers). -/
def regenLockCond (now : Nat) (l : AtomicDbItemLock) : Bool :=
  match l.ttl with
  | none => true
  | some t => decide (t = 0) || decide (t < now + 3600)

/-- `AtomicMemoryDb.getLock`. -/
def getLock (now : Nat) (st : DbState) (key : AtomicDbItemKey) :
    DbState × AtomicDbItemLock :=
  let k := getKey key
  let ttl := now + 24 * 60 * 60
  match mapGet k st.locks with
  | some existingLock =>
    if regenLockCond now existingLock then
      let newLock : AtomicDbItemLock :=
        { pk := key.pk, sk := key.sk, version := st.ctr, ttl := some ttl }
      ({ st with locks := mapSet k newLock st.locks, ctr := st.ctr + 1 }, newLock)
    else (st, existingLock)
  | none =>
    let newLock : AtomicDbItemLock :=
      { pk := key.pk, sk := key.sk, version := st.ctr, ttl := some ttl }
    ({ st with locks := mapSet k newLock st.locks, ctr := st.ctr + 1 }, newLock)

/-- The item-writing loop shared by `set` and the commit phase of
`setAtomic`: `this.items.set(this.getKey(item), item)` for each item. -/
def setItems (m : List (String × AtomicDbItem)) (items : List AtomicDbItem) :
    List (String × AtomicDbItem) :=
  items.foldl (fun m it => mapSet (keyOfItem it) it m) m

/-- `AtomicMemoryDb.set` (vector form; the scalar overload is normalized to a
one-element vector by the source). -/
def set (st : DbState) (items : List AtomicDbItem) : DbState :=
  { st with items := setItems st.items items }

/-- The validation test of `setAtomic` for one supplied lock:
the persisted lock at the lock's key is missing, or its version differs. -/
def lockCheckFails (st : DbState) (lock : AtomicDbItemLock) : Bool :=
  match mapGet (keyOfLock lock) st.locks with
  | none => true
  | some existingLock => decide (existingLock.version ≠ lock.version)

/-- One iteration of the commit loop of `setAtomic`: write the item, then
write a regenerated lock (fresh version, the supplied lock's key and ttl). -/
def commitPair (s : DbState) (p : AtomicDbItem × AtomicDbItemLock) : DbState :=
  { items := mapSet (keyOfItem p.1) p.1 s.items,
    locks := mapSet (keyOfLock p.2)
      { pk := p.2.pk, sk := p.2.sk, version := s.ctr, ttl := p.2.ttl } s.locks,
    ctr := s.ctr + 1 }

/-- `AtomicMemoryDb.setAtomic` (vector form).  Length check, then the
validation loop (which throws `RaceCondition` before any write if some pair
fails), then the commit loop. -/
def setAtomic (st : DbState) (items : List AtomicDbItem)
    (locks : List AtomicDbItemLock) : DbState × Except DbError Unit :=
  if items.length ≠ locks.length then (st, .error .invalidArgument)
  else if locks.any (lockCheckFails st) then (st, .error .raceCondition)
  else ((items.zip locks).foldl commitPair st, .ok ())

/-- `AtomicMemoryDb.delete` (vector form): remove the key from both maps. -/
def delete (st : DbState) (keys : List AtomicDbItemKey) : DbState :=
  keys.foldl (fun s key =>
    { s with items := mapDel (getKey key) s.items,
             locks := mapDel (getKey key) s.locks }) st

/-- `key.split(":")` regrouped as the source does:
`const [itemPk, ...skParts] = key.split(":"); const itemSk = skParts.join(":")`
is splitting at the first `":"` (everything before it, everything after it;
a key without `":"` yields the whole key and `""`). -/
def splitFirstAux : List Char → List Char × List Char
  | [] => ([], [])
  | c :: rest =>
    if c = ':' then ([], rest)
    else
      let p := splitFirstAux rest
      (c :: p.1, p.2)

/-- String-level wrapper of `splitFirstAux`. -/
def splitFirst (s : String) : String × String :=
  let p := splitFirstAux s.data
  (⟨p.1⟩, ⟨p.2⟩)

/-- `String.prototype.startsWith`, modelled on the characters. -/
def strStartsWith (s pre : String) : Bool := pre.data.isPrefixOf s.data

/-- `!query.sk || itemSk.startsWith(query.sk)`: an absent or empty (falsy)
sort-key argument matches every sort key. -/
def skPrefOk (qsk : Option String) (itemSk : String) : Bool :=
  match qsk with
  | none => true
  | some s => decide (s = "") || strStartsWith itemSk s

/-- The selection test of the `query` loop, applied to a storage key. -/
def queryMatches (q : AtomicDbQuery) (storageKey : String) : Bool :=
  let p := splitFirst storageKey
  decide (p.1 = q.pk) && skPrefOk q.sk p.2

/-- Code-point-wise lexicographic `<` on character lists; the model of
`a.sk.localeCompare(b.sk) < 0` (`localeCompare` is locale-sensitive in
JavaScript; the model fixes the unambiguous code-point order). -/
def charListLt : List Char → List Char → Bool
  | [], [] => false
  | [], _ :: _ => true
  | _ :: _, [] => false
  | a :: as, b :: bs =>
    if a < b then true else if b < a then false else charListLt as bs

/-- `a` may stay before `b` under the sort comparator
`(a, b) => query.reverse ? -cmp : cmp` with `cmp = a.sk.localeCompare(b.sk)`:
the comparator is `≤ 0`, i.e. `¬(b < a)` (or `¬(a < b)` when reversed). -/
def querySortLe (reverse : Bool) (a b : AtomicDbItem) : Bool :=
  if reverse then !charListLt a.sk.data b.sk.data
  else !charListLt b.sk.data a.sk.data

/-- Stable insertion of one element: keep every `b` with `le b a` before `a`,
so elements equal under the comparator keep their original relative order
(matching the stability guarantee of `Array.prototype.sort`). -/
def insertSorted (le : α → α → Bool) (a : α) : List α → List α
  | [] => [a]
  | b :: rest => if le b a then b :: insertSorted le a rest else a :: b :: rest

/-- Stable sort (model of `Array.prototype.sort`, which is stable). -/
def sortBy (le : α → α → Bool) (l : List α) : List α :=
  l.foldl (fun acc a => insertSorted le a acc) []

/-- `query.limit ? results.slice(0, query.limit) : results`: an absent *or
zero (falsy)* limit returns everything. -/
def applyLimit (limit : Option Nat) (l : List α) : List α :=
  match limit with
  | none => l
  | some n => if n = 0 then l else l.take n

/-- `AtomicMemoryDb.query`.  The loop visits every entry of the insertion-
ordered `items` map, deletes the expired ones via `cleanExpired` (deleting
the entry being visited is safe on a JavaScript `Map` and does not skip
others), collects the matches in visit order, sorts, and applies the limit. -/
def query (now : Nat) (st : DbState) (q : AtomicDbQuery) :
    DbState × List AtomicDbItem :=
  let survivors := st.items.filter (fun e => !isExpired now e.2.ttl)
  let matched := (survivors.filter (fun e => queryMatches q e.1)).map (·.2)
  ({ st with items := survivors },
   applyLimit q.limit (sortBy (querySortLe q.reverse) matched))

end AtomicMemoryDb

section MapLemmas

variable {α : Type}

theorem mapGet_mapSet_self (k : String) (v : α) (m : List (String × α)) :
    mapGet k (mapSet k v m) = some v := by
  induction m with
  | nil => simp [mapGet, mapSet]
  | cons e rest ih =>
    by_cases h : e.1 = k
    · simp [mapGet, mapSet, h]
    · simp [mapGet, mapSet, h, ih]

theorem mapGet_mapSet_ne {k k' : String} (h : k ≠ k') (v : α)
    (m : List (String × α)) : mapGet k (mapSet k' v m) = mapGet k m := by
  have h' : ¬ (k' = k) := fun hh => h hh.symm
  induction m with
  | nil => simp [mapGet, mapSet, h']
  | cons e rest ih =>
    by_cases he : e.1 = k'
    · have hek : ¬ (e.1 = k) := by rw [he]; exact h'
      simp [mapGet, mapSet, he, h', hek]
    · by_cases he' : e.1 = k <;> simp [mapGet, mapSet, he, he', h, h', ih]

theorem mapGet_mapDel_ne {k k' : String} (h : k ≠ k')
    (m : List (String × α)) : mapGet k (mapDel k' m) = mapGet k m := by
  have h' : ¬ (k' = k) := fun hh => h hh.symm
  induction m with
  | nil => simp [mapGet, mapDel]
  | cons e rest ih =>
    by_cases he : e.1 = k'
    · have hek : ¬ (e.1 = k) := by rw [he]; exact h'
      simp [mapGet, mapDel, he, h', hek]
    · by_cases he' : e.1 = k <;> simp [mapGet, mapDel, he, he', h, h', ih]

theorem mapGet_eq_none_of_not_mem {k : String} {m : List (String × α)}
    (h : k ∉ m.map (·.1)) : mapGet k m = none := by
  induction m with
  | nil => simp [mapGet]
  | cons e rest ih =>
    simp only [List.map_cons, List.mem_cons] at h
    push_neg at h
    have hek : ¬ (e.1 = k) := fun hh => h.1 hh.symm
    simp [mapGet, hek, ih h.2]

theorem mapGet_mapDel_self {k : String} {m : List (String × α)}
    (h : nodupKeys m) : mapGet k (mapDel k m) = none := by
  induction m with
  | nil => simp [mapGet, mapDel]
  | cons e rest ih =>
    simp only [nodupKeys, List.map_cons, List.nodup_cons] at h
    by_cases he : e.1 = k
    · subst he
      simp only [mapDel, if_pos rfl]
      exact mapGet_eq_none_of_not_mem h.1
    · simp [mapDel, he, mapGet, ih h.2]

theorem keys_mapSet (k : String) (v : α) (m : List (String × α)) :
    (mapSet k v m).map (·.1) =
      if k ∈ m.map (·.1) then m.map (·.1) else m.map (·.1) ++ [k] := by
  induction m with
  | nil => simp [mapSet]
  | cons e rest ih =>
    by_cases he : e.1 = k
    · simp [mapSet, he]
    · have : ¬ (k = e.1) := fun hh => he hh.symm
      by_cases hmem : k ∈ rest.map (·.1) <;>
        simp [mapSet, he, this, ih, hmem]

theorem nodupKeys_mapSet (k : String) (v : α) {m : List (String × α)}
    (h : nodupKeys m) : nodupKeys (mapSet k v m) := by
  unfold nodupKeys
  rw [keys_mapSet]
  by_cases hmem : k ∈ m.map (·.1)
  · rw [if_pos hmem]; exact h
  · rw [if_neg hmem]
    exact List.Nodup.append h (by simp) (by simpa using hmem)

theorem sublist_mapDel (k : String) (m : List (String × α)) :
    (mapDel k m).Sublist m := by
  induction m with
  | nil => simp [mapDel]
  | cons e rest ih =>
    by_cases he : e.1 = k
    · rw [mapDel, if_pos he]
      exact List.sublist_cons_self e rest
    · rw [mapDel, if_neg he]
      exact List.Sublist.cons₂ e ih

theorem nodupKeys_mapDel (k : String) {m : List (String × α)}
    (h : nodupKeys m) : nodupKeys (mapDel k m) :=
  List.Nodup.sublist (List.Sublist.map _ (sublist_mapDel k m)) h

end MapLemmas

namespace AtomicMemoryDb

/-! ### The commit phase of `setAtomic`, decomposed -/

/-- The lock-writing half of the commit loop: lock `i` is rewritten with
version `c + i`, its own key, and its own (caller-supplied) ttl. -/
def commitLocks (c : Nat) : List AtomicDbItemLock →
    List (String × AtomicDbItemLock) → List (String × AtomicDbItemLock)
  | [], m => m
  | lk :: rest, m =>
    commitLocks (c + 1) rest
      (mapSet (keyOfLock lk) { pk := lk.pk, sk := lk.sk, version := c, ttl := lk.ttl } m)

theorem commit_fold_decompose (items : List AtomicDbItem) :
    ∀ (locks : List AtomicDbItemLock) (st : DbState),
    items.length = locks.length →
    (items.zip locks).foldl commitPair st =
      { items := setItems st.items items,
        locks := commitLocks st.ctr locks st.locks,
        ctr := st.ctr + items.length } := by
  induction items with
  | nil =>
    intro locks st h
    cases locks with
    | nil => simp [setItems, commitLocks]
    | cons lk rest => simp at h
  | cons it rest ih =>
    intro locks st h
    cases locks with
    | nil => simp at h
    | cons lk lrest =>
      simp only [List.length_cons, Nat.succ.injEq] at h
      simp only [List.zip_cons_cons, List.foldl_cons]
      rw [ih lrest _ h]
      simp only [commitPair, setItems, List.foldl_cons, commitLocks]
      refine congrArg _ ?_
      simp [Nat.add_comm, Nat.add_assoc, Nat.add_left_comm]

theorem setItems_get_of_not_mem {k : String} {items : List AtomicDbItem}
    (h : k ∉ items.map keyOfItem) (m : List (String × AtomicDbItem)) :
    mapGet k (setItems m items) = mapGet k m := by
  induction items generalizing m with
  | nil => simp [setItems]
  | cons it rest ih =>
    simp only [List.map_cons, List.mem_cons] at h
    push_neg at h
    simp only [setItems, List.foldl_cons]
    rw [show (rest.foldl (fun m it => mapSet (keyOfItem it) it m)
        (mapSet (keyOfItem it) it m)) = setItems (mapSet (keyOfItem it) it m) rest from rfl]
    rw [ih h.2, mapGet_mapSet_ne h.1]

theorem setItems_get_self {items : List AtomicDbItem}
    (hnd : (items.map keyOfItem).Nodup) {it : AtomicDbItem} (hit : it ∈ items)
    (m : List (String × AtomicDbItem)) :
    mapGet (keyOfItem it) (setItems m items) = some it := by
  induction items generalizing m with
  | nil => cases hit
  | cons a rest ih =>
    simp only [List.map_cons, List.nodup_cons] at hnd
    rcases List.mem_cons.mp hit with h | h
    · subst h
      simp only [setItems, List.foldl_cons]
      rw [show (rest.foldl (fun m it => mapSet (keyOfItem it) it m)
          (mapSet (keyOfItem it) it m)) = setItems (mapSet (keyOfItem it) it m) rest from rfl]
      rw [setItems_get_of_not_mem hnd.1, mapGet_mapSet_self]
    · simp only [setItems, List.foldl_cons]
      exact ih hnd.2 h _

theorem commitLocks_get_of_not_mem {k : String} {locks : List AtomicDbItemLock}
    (h : k ∉ locks.map keyOfLock) (c : Nat)
    (m : List (String × AtomicDbItemLock)) :
    mapGet k (commitLocks c locks m) = mapGet k m := by
  induction locks generalizing c m with
  | nil => simp [commitLocks]
  | cons lk rest ih =>
    simp only [List.map_cons, List.mem_cons] at h
    push_neg at h
    simp only [commitLocks]
    rw [ih h.2, mapGet_mapSet_ne h.1]

theorem commitLocks_get {locks : List AtomicDbItemLock}
    (hnd : (locks.map keyOfLock).Nodup) :
    ∀ (i : Nat) (hi : i < locks.length) (c : Nat)
      (m : List (String × AtomicDbItemLock)),
    mapGet (keyOfLock (locks.get ⟨i, hi⟩)) (commitLocks c locks m) =
      some { pk := (locks.get ⟨i, hi⟩).pk, sk := (locks.get ⟨i, hi⟩).sk,
             version := c + i, ttl := (locks.get ⟨i, hi⟩).ttl } := by
  induction locks with
  | nil => intro i hi; cases hi
  | cons lk rest ih =>
    intro i hi c m
    simp only [List.map_cons, List.nodup_cons] at hnd
    cases i with
    | zero =>
      simp only [List.get, commitLocks]
      rw [commitLocks_get_of_not_mem hnd.1, mapGet_mapSet_self]
      simp
    | succ j =>
      have hj : j < rest.length := Nat.lt_of_succ_lt_succ hi
      simp only [List.get, commitLocks]
      rw [ih hnd.2 j hj (c + 1) _]
      refine congrArg _ ?_
      simp [Nat.add_comm, Nat.add_assoc, Nat.add_left_comm]

/-- Spec-level reading of a failed validation: the currently persisted lock at
the supplied lock's key is missing, or its version differs. -/
def lockStale (st : DbState) (lock : AtomicDbItemLock) : Prop :=
  mapGet (keyOfLock lock) st.locks = none ∨
  ∃ ex, mapGet (keyOfLock lock) st.locks = some ex ∧ ex.version ≠ lock.version

/-- Spec-level reading of a successful validation. -/
def lockValidates (st : DbState) (lock : AtomicDbItemLock) : Prop :=
  ∃ ex, mapGet (keyOfLock lock) st.locks = some ex ∧ ex.version = lock.version

theorem lockCheckFails_iff {st : DbState} {lock : AtomicDbItemLock} :
    lockCheckFails st lock = true ↔ lockStale st lock := by
  unfold lockCheckFails lockStale
  cases h : mapGet (keyOfLock lock) st.locks with
  | none => simp
  | some ex => simp [h]

theorem lockCheckFails_eq_false {st : DbState} {lock : AtomicDbItemLock}
    (h : lockValidates st lock) : lockCheckFails st lock = false := by
  obtain ⟨ex, hget, hver⟩ := h
  simp [lockCheckFails, hget, hver]

end AtomicMemoryDb

open AtomicMemoryDb in
/-- **C1.** For every positionally paired items/locks batch in which some
supplied lock fails validation (the persisted lock at its key is missing or
carries a different version), `setAtomic` fails with the race-condition error
and the returned state is exactly the input state: no item is written and no
persisted lock is modified. -/
theorem setAtomic_race_leaves_state_unchanged (st : DbState)
    (items : List AtomicDbItem) (locks : List AtomicDbItemLock)
    (hlen : items.length = locks.length)
    (hstale : ∃ lock ∈ locks, lockStale st lock) :
    setAtomic st items locks = (st, Except.error DbError.raceCondition) := by
  obtain ⟨lock, hmem, hst⟩ := hstale
  have hany : locks.any (lockCheckFails st) = true :=
    List.any_eq_true.mpr ⟨lock, hmem, lockCheckFails_iff.mpr hst⟩
  unfold setAtomic
  rw [if_neg (by simp [hlen]), if_pos hany]

open AtomicMemoryDb in
/-- Witness for C1: a one-item batch against an empty store (no persisted
lock at the supplied lock's key). -/
theorem setAtomic_race_leaves_state_unchanged_witness :
    setAtomic emptyDb [{ pk := "a", sk := "b" }]
      [{ pk := "a", sk := "c", version := 0 }] =
      (emptyDb, Except.error DbError.raceCondition) :=
  setAtomic_race_leaves_state_unchanged emptyDb _ _ (by decide)
    ⟨_, List.mem_singleton_self _, Or.inl (by decide)⟩

open AtomicMemoryDb in
/-- Counterexample to C2 as stated: versions match, so the commit runs, but
the regenerated persisted lock carries the ttl of the *caller-supplied* lock
(`999`), not the ttl of the validated (currently persisted) lock (`100`). -/
theorem setAtomic_regenerated_ttl_counterexample :
    mapGet "p:L"
      ({ items := [],
         locks := [("p:L", { pk := "p", sk := "L", version := 5, ttl := some 100 })],
         ctr := 6 : DbState }
        |> fun st => (setAtomic st [{ pk := "p", sk := "d" }]
            [{ pk := "p", sk := "L", version := 5, ttl := some 999 }]).1.locks) =
      some { pk := "p", sk := "L", version := 6, ttl := some 999 } ∧
    (some 999 : Option Nat) ≠ some 100 := by decide

open AtomicMemoryDb in
/-- **C2 (amended).** If every positionally paired supplied lock's version
equals the currently persisted lock's version, `setAtomic` succeeds; the final
state is the input state with every supplied item written at its key, every
lock rewritten through `commitLocks`, and the version counter advanced by the
batch length.  When keys are pairwise distinct, the entry at item `i`'s key is
item `i`, and the persisted lock at lock `i`'s key is a regenerated lock with
a new version token (`ctr + i`), the same key, and the same ttl **as the
supplied lock** (not the previously persisted one).  Under the generation
invariant every new version token differs from every previously persisted
version. -/
theorem setAtomic_commit_spec (st : DbState) (items : List AtomicDbItem)
    (locks : List AtomicDbItemLock) (hlen : items.length = locks.length)
    (hok : ∀ lock ∈ locks, lockValidates st lock) :
    (setAtomic st items locks).2 = Except.ok () ∧
    (setAtomic st items locks).1 =
      { items := setItems st.items items,
        locks := commitLocks st.ctr locks st.locks,
        ctr := st.ctr + items.length } ∧
    ((items.map keyOfItem).Nodup →
      ∀ it ∈ items,
        mapGet (keyOfItem it) (setAtomic st items locks).1.items = some it) ∧
    ((locks.map keyOfLock).Nodup →
      ∀ (i : Nat) (hi : i < locks.length),
        mapGet (keyOfLock (locks.get ⟨i, hi⟩)) (setAtomic st items locks).1.locks =
          some { pk := (locks.get ⟨i, hi⟩).pk, sk := (locks.get ⟨i, hi⟩).sk,
                 version := st.ctr + i, ttl := (locks.get ⟨i, hi⟩).ttl }) ∧
    ((∀ e ∈ st.locks, e.2.version < st.ctr) →
      ∀ i : Nat, i < locks.length →
        (st.ctr + i) ∉ st.locks.map (fun e => e.2.version)) := by
  have hnotany : locks.any (lockCheckFails st) = false := by
    rw [List.any_eq_false]
    intro lock hmem
    simp [lockCheckFails_eq_false (hok lock hmem)]
  have hres : setAtomic st items locks =
      ((items.zip locks).foldl commitPair st, Except.ok ()) := by
    unfold setAtomic
    rw [if_neg (by simp [hlen]), if_neg (by simp [hnotany])]
  have hfold := commit_fold_decompose items locks st hlen
  refine ⟨by rw [hres], by rw [hres, hfold], ?_, ?_, ?_⟩
  · intro hnd it hit
    rw [hres, hfold]
    exact setItems_get_self hnd hit st.items
  · intro hnd i hi
    rw [hres, hfold]
    exact commitLocks_get hnd i hi st.ctr st.locks
  · intro hfresh i _ hmem
    obtain ⟨e, he, hv⟩ := List.mem_map.mp hmem
    have := hfresh e he
    omega

open AtomicMemoryDb in
/-- Witness for C2 (amended): a one-item batch whose supplied lock matches
the persisted version `5` but carries a different ttl; the regenerated lock
gets the fresh version `6` and the supplied ttl `999`. -/
theorem setAtomic_commit_spec_witness :
    (setAtomic
      { items := [],
        locks := [("p:L", { pk := "p", sk := "L", version := 5, ttl := some 100 })],
        ctr := 6 } [{ pk := "p", sk := "d" }]
      [{ pk := "p", sk := "L", version := 5, ttl := some 999 }]).2 = Except.ok () ∧
    mapGet (keyOfLock { pk := "p", sk := "L", version := 5, ttl := some 999 })
      (setAtomic
        { items := [],
          locks := [("p:L", { pk := "p", sk := "L", version := 5, ttl := some 100 })],
          ctr := 6 } [{ pk := "p", sk := "d" }]
        [{ pk := "p", sk := "L", version := 5, ttl := some 999 }]).1.locks =
      some { pk := "p", sk := "L", version := 6, ttl := some 999 } := by
  have h := setAtomic_commit_spec
    { items := [],
      locks := [("p:L", { pk := "p", sk := "L", version := 5, ttl := some 100 })],
      ctr := 6 } [{ pk := "p", sk := "d" }]
    [{ pk := "p", sk := "L", version := 5, ttl := some 999 }] (by decide)
    (by
      intro lock hmem
      rw [List.mem_singleton] at hmem
      subst hmem
      exact ⟨{ pk := "p", sk := "L", version := 5, ttl := some 100 }, by decide, by decide⟩)
  refine ⟨h.1, ?_⟩
  have h4 := h.2.2.2.1 (by decide) 0 (by decide)
  simpa using h4

open AtomicMemoryDb in
/-- Counterexample to C3 as stated: a persisted lock without a ttl (reachable:
`getLock` creates a lock, then a successful `setAtomic` whose supplied lock
carries no ttl persists a regenerated lock with `ttl := none`).  That lock
exists, its ttl has not passed and it is not within one hour of a ttl — yet
`getLock` regenerates it (fresh version `2`, not the persisted `1`) instead
of returning it unchanged without a write. -/
theorem getLock_no_ttl_counterexample :
    mapGet "p:s"
      ((setAtomic (getLock 0 emptyDb ⟨"p", "s"⟩).1 [{ pk := "q", sk := "d" }]
          [{ pk := "p", sk := "s", version := 0, ttl := none }]).1).locks =
      some { pk := "p", sk := "s", version := 1, ttl := none } ∧
    (getLock 0
      ((setAtomic (getLock 0 emptyDb ⟨"p", "s"⟩).1 [{ pk := "q", sk := "d" }]
          [{ pk := "p", sk := "s", version := 0, ttl := none }]).1) ⟨"p", "s"⟩).2 =
      { pk := "p", sk := "s", version := 2, ttl := some 86400 } ∧
    (getLock 0
      ((setAtomic (getLock 0 emptyDb ⟨"p", "s"⟩).1 [{ pk := "q", sk := "d" }]
          [{ pk := "p", sk := "s", version := 0, ttl := none }]).1) ⟨"p", "s"⟩).1 ≠
      (setAtomic (getLock 0 emptyDb ⟨"p", "s"⟩).1 [{ pk := "q", sk := "d" }]
          [{ pk := "p", sk := "s", version := 0, ttl := none }]).1 := by decide

open AtomicMemoryDb in
/-- **C3 (amended).** `getLock` regenerates (persists and returns a lock with
a fresh version and `ttl = now + 24h`) exactly when no lock exists at the key,
or the existing lock has no ttl (or the falsy ttl `0`), or fewer than one hour
remains before its ttl (`ttl - now < 1h`, which subsumes a ttl that has
passed); in every other case it returns the existing persisted lock unchanged
(identical version and ttl) and performs no write.  A freshly generated
version differs from every persisted version under the generation
invariant. -/
theorem getLock_spec (now : Nat) (st : DbState) (key : AtomicDbItemKey) :
    (∀ l t, mapGet (getKey key) st.locks = some l → l.ttl = some t →
      t ≠ 0 → now + 3600 ≤ t → getLock now st key = (st, l)) ∧
    ((mapGet (getKey key) st.locks = none ∨
      (∃ l, mapGet (getKey key) st.locks = some l ∧
        (l.ttl = none ∨ l.ttl = some 0 ∨ ∃ t, l.ttl = some t ∧ t < now + 3600))) →
      getLock now st key =
        ({ st with
            locks := mapSet (getKey key)
              { pk := key.pk, sk := key.sk, version := st.ctr,
                ttl := some (now + 24 * 60 * 60) } st.locks,
            ctr := st.ctr + 1 },
         { pk := key.pk, sk := key.sk, version := st.ctr,
           ttl := some (now + 24 * 60 * 60) })) ∧
    ((∀ e ∈ st.locks, e.2.version < st.ctr) →
      ∀ e ∈ st.locks, e.2.version ≠ st.ctr) := by
  refine ⟨?_, ?_, ?_⟩
  · intro l t hget httl ht0 hge
    have hc : regenLockCond now l = false := by
      simp only [regenLockCond, httl]
      simp only [Bool.or_eq_false_iff, decide_eq_false_iff_not]
      omega
    simp [getLock, hget, hc]
  · intro hre
    rcases hre with hnone | ⟨l, hget, hcond⟩
    · simp [getLock, hnone]
    · have hc : regenLockCond now l = true := by
        rcases hcond with h | h | ⟨t, ht, hlt⟩
        · simp [regenLockCond, h]
        · simp [regenLockCond, h]
        · simp [regenLockCond, ht, hlt]
      simp [getLock, hget, hc]
  · intro hf e he
    exact Nat.ne_of_lt (hf e he)

open AtomicMemoryDb in
/-- Witness for C3 (amended): a lock with more than an hour left is returned
unchanged with no write; on an empty store a lock is created, persisted and
returned with version `ctr` and `ttl = now + 24h`. -/
theorem getLock_spec_witness :
    getLock 50
      { items := [],
        locks := [("p:s", { pk := "p", sk := "s", version := 3, ttl := some 1000000 })],
        ctr := 4 } ⟨"p", "s"⟩ =
      ({ items := [],
         locks := [("p:s", { pk := "p", sk := "s", version := 3, ttl := some 1000000 })],
         ctr := 4 },
       { pk := "p", sk := "s", version := 3, ttl := some 1000000 }) ∧
    getLock 0 emptyDb ⟨"p", "s"⟩ =
      ({ items := [],
         locks := [("p:s", { pk := "p", sk := "s", version := 0, ttl := some 86400 })],
         ctr := 1 },
       { pk := "p", sk := "s", version := 0, ttl := some 86400 }) := by
  constructor
  · exact (getLock_spec 50
      { items := [],
        locks := [("p:s", { pk := "p", sk := "s", version := 3, ttl := some 1000000 })],
        ctr := 4 } ⟨"p", "s"⟩).1
      { pk := "p", sk := "s", version := 3, ttl := some 1000000 } 1000000
      (by decide) (by decide) (by decide) (by decide)
  · exact ((getLock_spec 0 emptyDb ⟨"p", "s"⟩).2.1 (Or.inl (by decide))).trans
      (by decide)

open AtomicMemoryDb in
/-- Counterexample to C7 as stated: an item with `ttl = 0` — a ttl that is
set and strictly in the past at `now = 5` — is *returned* by `get` (the falsy
check `if (!ttl) return false` treats `0` like an absent ttl) and is not
removed from storage. -/
theorem get_zero_ttl_counterexample :
    (get 5
      { items := [("p:s", { pk := "p", sk := "s", ttl := some 0 })],
        locks := [], ctr := 0 } ⟨"p", "s"⟩).2 =
      some { pk := "p", sk := "s", ttl := some 0 } ∧
    (0 : Nat) < 5 ∧
    (get 5
      { items := [("p:s", { pk := "p", sk := "s", ttl := some 0 })],
        locks := [], ctr := 0 } ⟨"p", "s"⟩).1.items =
      [("p:s", { pk := "p", sk := "s", ttl := some 0 })] := by decide

open AtomicMemoryDb in
/-- **C7 (amended).** For every key whose stored item has a ttl that is set,
*nonzero*, and strictly in the past, `get` treats the item as absent: it
returns `none` and physically deletes the expired entry from the items map as
a side effect of the read. -/
theorem get_expired_item_removed (now : Nat) (st : DbState)
    (key : AtomicDbItemKey) (it : AtomicDbItem) (t : Nat)
    (hget : mapGet (getKey key) st.items = some it)
    (httl : it.ttl = some t) (ht0 : t ≠ 0) (hpast : t < now) :
    get now st key = ({ st with items := mapDel (getKey key) st.items }, none) := by
  have hexp : isExpired now it.ttl = true := by
    simp only [httl, isExpired]
    rw [if_neg ht0]
    simpa using hpast
  simp [AtomicMemoryDb.get, cleanExpiredItems, hget, hexp]

open AtomicMemoryDb in
/-- Witness for C7 (amended): an item with `ttl = 10` read at `now = 20`. -/
theorem get_expired_item_removed_witness :
    get 20
      { items := [("p:s", { pk := "p", sk := "s", ttl := some 10 })],
        locks := [], ctr := 0 } ⟨"p", "s"⟩ =
      ({ items := [], locks := [], ctr := 0 }, none) :=
  (get_expired_item_removed 20
      { items := [("p:s", { pk := "p", sk := "s", ttl := some 10 })],
        locks := [], ctr := 0 } ⟨"p", "s"⟩
      { pk := "p", sk := "s", ttl := some 10 } 10
      (by decide) (by decide) (by decide) (by decide)).trans (by decide)

open AtomicMemoryDb in
/-- Counterexample to C8 as stated: the keys `(pk "a:b", sk "c")` and
`(pk "a", sk "b:c")` differ, yet both serialize to the storage key
`"a:b:c"`, so writing an item at the first changes `get` at the second. -/
theorem set_key_collision_counterexample :
    ({ pk := "a:b", sk := "c" } : AtomicDbItemKey) ≠ { pk := "a", sk := "b:c" } ∧
    (get 0 (set emptyDb [{ pk := "a", sk := "b:c", data := some "old" }])
        ⟨"a", "b:c"⟩).2 = some { pk := "a", sk := "b:c", data := some "old" } ∧
    (get 0 (set (set emptyDb [{ pk := "a", sk := "b:c", data := some "old" }])
        [{ pk := "a:b", sk := "c", data := some "new" }]) ⟨"a", "b:c"⟩).2 =
      some { pk := "a:b", sk := "c", data := some "new" } := by decide

open AtomicMemoryDb in
/-- **C8 (amended).** Writing an item via `set` leaves `get` at a second key
unchanged whenever the two keys' *serialized* forms `pk ++ ":" ++ sk` differ
(for colon-free partition keys this is exactly "the keys differ"). -/
theorem set_preserves_other_keys (now : Nat) (st : DbState)
    (it1 : AtomicDbItem) (k2 : AtomicDbItemKey)
    (h : keyOfItem it1 ≠ getKey k2) :
    (get now (set st [it1]) k2).2 = (get now st k2).2 := by
  have hg : mapGet (getKey k2) (mapSet (keyOfItem it1) it1 st.items) =
      mapGet (getKey k2) st.items := mapGet_mapSet_ne (Ne.symm h) _ _
  cases hmg : mapGet (getKey k2) st.items with
  | none =>
    simp [AtomicMemoryDb.get, AtomicMemoryDb.set, setItems, cleanExpiredItems,
      hg, hmg]
  | some it =>
    by_cases hexp : isExpired now it.ttl = true
    · simp [AtomicMemoryDb.get, AtomicMemoryDb.set, setItems, cleanExpiredItems,
        hg, hmg, hexp]
    · simp [AtomicMemoryDb.get, AtomicMemoryDb.set, setItems, cleanExpiredItems,
        hg, hmg, hexp]

open AtomicMemoryDb in
/-- Witness for C8 (amended): keys `("a","x")` and `("a","y")` serialize
differently; writing at the first leaves a read of the second unchanged. -/
theorem set_preserves_other_keys_witness :
    (get 0 (set (set emptyDb [{ pk := "a", sk := "y", data := some "v" }])
        [{ pk := "a", sk := "x", data := some "w" }]) ⟨"a", "y"⟩).2 =
      (get 0 (set emptyDb [{ pk := "a", sk := "y", data := some "v" }])
        ⟨"a", "y"⟩).2 :=
  set_preserves_other_keys 0
    (set emptyDb [{ pk := "a", sk := "y", data := some "v" }])
    { pk := "a", sk := "x", data := some "w" } ⟨"a", "y"⟩ (by decide)

open AtomicMemoryDb in
/-- Counterexample to C9 as stated: after `getLock` at `("p","s")` and `set`
of an item at the very same key, *both* a lock entry and an item entry are
persisted under the serialized key `"p:s"` — they coexist in two separate
maps instead of occupying one slot of a single flat keyspace. -/
theorem lock_item_coexist_counterexample :
    mapGet "p:s"
      (set (getLock 0 emptyDb ⟨"p", "s"⟩).1
        [{ pk := "p", sk := "s", data := some "d" }]).items =
      some { pk := "p", sk := "s", data := some "d" } ∧
    mapGet "p:s"
      (set (getLock 0 emptyDb ⟨"p", "s"⟩).1
        [{ pk := "p", sk := "s", data := some "d" }]).locks =
      some { pk := "p", sk := "s", version := 0, ttl := some 86400 } := by decide

open AtomicMemoryDb in
/-- **C9 (amended).** Lock entries and data entries are persisted in two
*separate* keyspaces (the `items` map and the `locks` map), both keyed by the
same `pk:sk` serialization; a lock persisted by `getLock(k)` and a data item
written by `set` at the same key coexist independently: `set` never touches
the lock map and `getLock` never touches the item map. -/
theorem locks_and_items_separate (now : Nat) (st : DbState)
    (items : List AtomicDbItem) (key : AtomicDbItemKey) :
    (set st items).locks = st.locks ∧
    (getLock now st key).1.items = st.items := by
  refine ⟨rfl, ?_⟩
  unfold getLock
  cases h : mapGet (getKey key) st.locks with
  | none => simp [h]
  | some l =>
    by_cases hc : regenLockCond now l = true <;> simp [h, hc]

namespace AtomicMemoryDb

/-! ### Order facts about the sort comparator -/

theorem charListLt_trans : ∀ {a b c : List Char},
    charListLt a b = true → charListLt b c = true → charListLt a c = true := by
  intro a
  induction a with
  | nil =>
    intro b c h1 h2
    cases b with
    | nil => simp [charListLt] at h1
    | cons b0 bs =>
      cases c with
      | nil => simp [charListLt] at h2
      | cons c0 cs => simp [charListLt]
  | cons a0 as ih =>
    intro b c h1 h2
    cases b with
    | nil => simp [charListLt] at h1
    | cons b0 bs =>
      cases c with
      | nil => simp [charListLt] at h2
      | cons c0 cs =>
        simp only [charListLt] at h1 h2 ⊢
        by_cases hab : a0 < b0
        · by_cases hbc : b0 < c0
          · simp [lt_trans hab hbc]
          · by_cases hcb : c0 < b0
            · rw [if_neg hbc, if_pos hcb] at h2
              cases h2
            · have hbc0 : b0 = c0 :=
                le_antisymm (le_of_not_lt hcb) (le_of_not_lt hbc)
              have : a0 < c0 := hbc0 ▸ hab
              simp [this]
        · by_cases hba : b0 < a0
          · rw [if_neg hab, if_pos hba] at h1
            cases h1
          · have hab0 : a0 = b0 :=
              le_antisymm (le_of_not_lt hba) (le_of_not_lt hab)
            rw [if_neg hab, if_neg hba] at h1
            by_cases hbc : b0 < c0
            · have : a0 < c0 := hab0 ▸ hbc
              simp [this]
            · by_cases hcb : c0 < b0
              · rw [if_neg hbc, if_pos hcb] at h2
                cases h2
              · rw [if_neg hbc, if_neg hcb] at h2
                have hbc0 : b0 = c0 :=
                  le_antisymm (le_of_not_lt hcb) (le_of_not_lt hbc)
                have hac : ¬ a0 < c0 := by rw [hab0, hbc0]; exact lt_irrefl c0
                have hca : ¬ c0 < a0 := by rw [hab0, hbc0]; exact lt_irrefl c0
                rw [if_neg hac, if_neg hca]
                exact ih h1 h2

theorem charListLt_asymm : ∀ {a b : List Char},
    charListLt a b = true → charListLt b a = false := by
  intro a
  induction a with
  | nil =>
    intro b h1
    cases b with
    | nil => simp [charListLt] at h1
    | cons b0 bs => simp [charListLt]
  | cons a0 as ih =>
    intro b h1
    cases b with
    | nil => simp [charListLt] at h1
    | cons b0 bs =>
      simp only [charListLt] at h1 ⊢
      by_cases hab : a0 < b0
      · rw [if_neg (lt_asymm hab), if_pos hab]
      · by_cases hba : b0 < a0
        · rw [if_neg hab, if_pos hba] at h1
          cases h1
        · rw [if_neg hab, if_neg hba] at h1
          rw [if_neg hba, if_neg hab]
          exact ih h1

theorem charListLt_connex : ∀ {a b : List Char}, a ≠ b →
    charListLt a b = true ∨ charListLt b a = true := by
  intro a
  induction a with
  | nil =>
    intro b hb
    cases b with
    | nil => exact absurd rfl hb
    | cons b0 bs => left; simp [charListLt]
  | cons a0 as ih =>
    intro b hb
    cases b with
    | nil => right; simp [charListLt]
    | cons b0 bs =>
      by_cases hab : a0 < b0
      · left; simp [charListLt, hab]
      · by_cases hba : b0 < a0
        · right; simp [charListLt, hba]
        · have he : a0 = b0 :=
            le_antisymm (le_of_not_lt hba) (le_of_not_lt hab)
          have hne : as ≠ bs := by
            intro hh
            exact hb (by rw [he, hh])
          rcases ih hne with h | h
          · left; simp [charListLt, hab, hba, h]
          · right; simp [charListLt, hab, hba, h]

theorem charListLt_negtrans {x y z : List Char} (h1 : charListLt y x = false)
    (h2 : charListLt z y = false) : charListLt z x = false := by
  by_cases hzx : charListLt z x = true
  · by_cases heq : y = z
    · rw [heq] at h1
      rw [h1] at hzx
      cases hzx
    · rcases charListLt_connex heq with h | h
      · have := charListLt_trans h hzx
        rw [h1] at this
        cases this
      · rw [h2] at h
        cases h
  · exact Bool.eq_false_iff.mpr hzx

theorem bool_not_true_of_false {x : Bool} (h : x = false) : (!x) = true := by
  rw [h]; rfl

theorem bool_false_of_not_true {x : Bool} (h : (!x) = true) : x = false := by
  cases hx : x
  · rfl
  · rw [hx] at h; exact absurd h (by decide)

theorem querySortLe_total (r : Bool) (a b : AtomicDbItem) :
    querySortLe r a b = true ∨ querySortLe r b a = true := by
  cases r
  · by_cases h : charListLt b.sk.data a.sk.data = true
    · right
      show (!charListLt a.sk.data b.sk.data) = true
      exact bool_not_true_of_false (charListLt_asymm h)
    · left
      show (!charListLt b.sk.data a.sk.data) = true
      exact bool_not_true_of_false (Bool.eq_false_iff.mpr h)
  · by_cases h : charListLt a.sk.data b.sk.data = true
    · right
      show (!charListLt b.sk.data a.sk.data) = true
      exact bool_not_true_of_false (charListLt_asymm h)
    · left
      show (!charListLt a.sk.data b.sk.data) = true
      exact bool_not_true_of_false (Bool.eq_false_iff.mpr h)

theorem querySortLe_trans (r : Bool) (a b c : AtomicDbItem)
    (h1 : querySortLe r a b = true) (h2 : querySortLe r b c = true) :
    querySortLe r a c = true := by
  cases r
  · have f1 : charListLt b.sk.data a.sk.data = false := bool_false_of_not_true h1
    have f2 : charListLt c.sk.data b.sk.data = false := bool_false_of_not_true h2
    show (!charListLt c.sk.data a.sk.data) = true
    exact bool_not_true_of_false (charListLt_negtrans f1 f2)
  · have f1 : charListLt a.sk.data b.sk.data = false := bool_false_of_not_true h1
    have f2 : charListLt b.sk.data c.sk.data = false := bool_false_of_not_true h2
    show (!charListLt a.sk.data c.sk.data) = true
    exact bool_not_true_of_false (charListLt_negtrans f2 f1)

/-! ### Stable sort facts -/

theorem mem_insertSorted {le : α → α → Bool} {a x : α} :
    ∀ {l : List α}, x ∈ insertSorted le a l ↔ x = a ∨ x ∈ l := by
  intro l
  induction l with
  | nil => simp [insertSorted]
  | cons b rest ih =>
    by_cases h : le b a = true
    · simp only [insertSorted, if_pos h, List.mem_cons, ih]
      tauto
    · simp only [insertSorted, if_neg h, List.mem_cons]

theorem insertSorted_pairwise {le : α → α → Bool}
    (htot : ∀ a b, le a b = true ∨ le b a = true)
    (htr : ∀ a b c, le a b = true → le b c = true → le a c = true)
    (a : α) : ∀ {l : List α}, List.Pairwise (fun x y => le x y = true) l →
    List.Pairwise (fun x y => le x y = true) (insertSorted le a l) := by
  intro l
  induction l with
  | nil => intro _; simp [insertSorted]
  | cons b rest ih =>
    intro hl
    rw [List.pairwise_cons] at hl
    by_cases h : le b a = true
    · rw [insertSorted, if_pos h]
      rw [List.pairwise_cons]
      refine ⟨?_, ih hl.2⟩
      intro x hx
      rcases mem_insertSorted.mp hx with rfl | hx
      · exact h
      · exact hl.1 x hx
    · rw [insertSorted, if_neg h]
      have hab : le a b = true := by
        rcases htot a b with hh | hh
        · exact hh
        · exact absurd hh h
      rw [List.pairwise_cons]
      refine ⟨?_, List.pairwise_cons.mpr hl⟩
      intro x hx
      rcases List.mem_cons.mp hx with rfl | hx
      · exact hab
      · exact htr a b x hab (hl.1 x hx)

theorem sortBy_pairwise {le : α → α → Bool}
    (htot : ∀ a b, le a b = true ∨ le b a = true)
    (htr : ∀ a b c, le a b = true → le b c = true → le a c = true)
    (l : List α) :
    List.Pairwise (fun x y => le x y = true) (sortBy le l) := by
  suffices h : ∀ (l acc : List α),
      List.Pairwise (fun x y => le x y = true) acc →
      List.Pairwise (fun x y => le x y = true)
        (l.foldl (fun acc a => insertSorted le a acc) acc) by
    exact h l [] (by simp)
  intro l
  induction l with
  | nil => intro acc h; exact h
  | cons a rest ih =>
    intro acc h
    exact ih _ (insertSorted_pairwise htot htr a h)

/-! ### The storage-key split on well-formed keys -/

theorem splitFirstAux_append : ∀ {a : List Char}, ':' ∉ a → ∀ (b : List Char),
    splitFirstAux (a ++ ':' :: b) = (a, b) := by
  intro a
  induction a with
  | nil => intro _ b; simp [splitFirstAux]
  | cons c rest ih =>
    intro h b
    simp only [List.mem_cons] at h
    push_neg at h
    have hc : ¬ (c = ':') := fun hh => h.1 hh.symm
    show splitFirstAux (c :: (rest ++ ':' :: b)) = (c :: rest, b)
    simp [splitFirstAux, hc, ih h.2 b]

theorem splitFirst_getKey (pk sk : String) (h : ':' ∉ pk.data) :
    splitFirst (getKey ⟨pk, sk⟩) = (pk, sk) := by
  unfold splitFirst getKey
  have hdata : (pk ++ ":" ++ sk).data = pk.data ++ ':' :: sk.data := by
    show (pk.data ++ [':']) ++ sk.data = pk.data ++ ':' :: sk.data
    rw [List.append_assoc]
    rfl
  rw [hdata, splitFirstAux_append h]

/-- The claim-side selection predicate of `query`, phrased on the item's own
fields: non-expired, partition key equal, sort key starting with the (absent
or empty ⇒ always matching) prefix. -/
def matchesSpec (now : Nat) (q : AtomicDbQuery) (it : AtomicDbItem) : Bool :=
  !isExpired now it.ttl && decide (it.pk = q.pk) && skPrefOk q.sk it.sk

theorem query_select_eq (now : Nat) (q : AtomicDbQuery) :
    ∀ {l : List (String × AtomicDbItem)},
    (∀ e ∈ l, e.1 = keyOfItem e.2 ∧ ':' ∉ e.2.pk.data) →
    (l.filter (fun e => queryMatches q e.1 && !isExpired now e.2.ttl)).map (·.2) =
      (l.map (·.2)).filter (matchesSpec now q) := by
  intro l
  induction l with
  | nil => intro _; rfl
  | cons e rest ih =>
    intro hwf
    have he := hwf e (List.mem_cons_self e rest)
    have hrest := fun x hx => hwf x (List.mem_cons_of_mem e hx)
    have hm : queryMatches q e.1 =
        (decide (e.2.pk = q.pk) && skPrefOk q.sk e.2.sk) := by
      rw [he.1]
      unfold queryMatches keyOfItem
      rw [splitFirst_getKey _ _ he.2]
    by_cases hexp : isExpired now e.2.ttl = true
    · simp only [List.filter_cons, List.map_cons, hexp, matchesSpec,
        Bool.not_true, Bool.and_false, Bool.false_and, Bool.false_eq_true,
        if_false]
      exact ih hrest
    · rw [Bool.not_eq_true] at hexp
      by_cases hq : (decide (e.2.pk = q.pk) && skPrefOk q.sk e.2.sk) = true
      · simp only [List.filter_cons, List.map_cons, hexp, hm, hq, matchesSpec,
          Bool.not_false, Bool.and_true, Bool.true_and, if_true]
        rw [ih hrest]
      · have hq' : (decide (e.2.pk = q.pk) && skPrefOk q.sk e.2.sk) = false :=
          Bool.eq_false_iff.mpr hq
        simp only [List.filter_cons, List.map_cons, hexp, hm, hq', matchesSpec,
          Bool.not_false, Bool.and_true, Bool.true_and, Bool.false_and,
          Bool.false_eq_true, if_false]
        exact ih hrest

end AtomicMemoryDb

open AtomicMemoryDb in
/-- Counterexample to C4 as stated, in two parts.  (i) The stored, non-expired
item `(pk "a:b", sk "c")` satisfies the claim's selection predicate for the
query `{pk "a:b", sk "c"}` (shown by `matchesSpec = true`), yet `query`
returns nothing: the loop re-splits the serialized key `"a:b:c"` at the first
colon and compares `"a" = "a:b"`.  (ii) With `limit := some 0` — a specified
limit — the claim allows at most 0 results, yet the falsy check
`query.limit ?` drops the truncation and both stored items are returned. -/
theorem query_counterexample :
    ((query 7 (set emptyDb [{ pk := "a:b", sk := "c" }])
        { pk := "a:b", sk := some "c" }).2 = [] ∧
      (set emptyDb [{ pk := "a:b", sk := "c" }]).items.map (·.2) =
        [{ pk := "a:b", sk := "c" }] ∧
      matchesSpec 7 { pk := "a:b", sk := some "c" } { pk := "a:b", sk := "c" } = true) ∧
    ((query 7 (set emptyDb [{ pk := "p", sk := "1" }, { pk := "p", sk := "2" }])
        { pk := "p", limit := some 0 }).2.length = 2) := by decide

open AtomicMemoryDb in
/-- **C4 (amended).** For a store whose item entries are keyed by their own
`pk:sk` serialization with colon-free partition keys (always true for states
produced through the API with colon-free `pk`s), and a limit that is not the
falsy `some 0`, `query` returns exactly the non-expired stored items with
`pk = q.pk` whose sort key passes the (absent-or-empty matches all) prefix
test, stably sorted by sort key — ascending, or descending when `reverse` —
then truncated to the limit when one is specified; the result is ordered
under the query comparator and its length is bounded by any specified
limit. -/
theorem query_spec (now : Nat) (st : DbState) (q : AtomicDbQuery)
    (hwf : ∀ e ∈ st.items, e.1 = keyOfItem e.2 ∧ ':' ∉ e.2.pk.data)
    (hlim : q.limit ≠ some 0) :
    (query now st q).2 =
      applyLimit q.limit
        (sortBy (querySortLe q.reverse)
          ((st.items.map (·.2)).filter (matchesSpec now q))) ∧
    (∀ n, q.limit = some n → (query now st q).2.length ≤ n) ∧
    List.Pairwise (fun a b => querySortLe q.reverse a b = true)
      (query now st q).2 := by
  have hsel := query_select_eq now q hwf
  have hq2 : (query now st q).2 =
      applyLimit q.limit
        (sortBy (querySortLe q.reverse)
          ((st.items.map (·.2)).filter (matchesSpec now q))) := by
    unfold query
    dsimp only
    rw [List.filter_filter, hsel]
  refine ⟨hq2, ?_, ?_⟩
  · intro n hn
    have hn0 : n ≠ 0 := by
      intro hh
      exact hlim (by rw [hn, hh])
    rw [hq2, hn]
    simp only [applyLimit]
    rw [if_neg hn0]
    exact List.length_take_le n _
  · rw [hq2]
    have hsorted := sortBy_pairwise (querySortLe_total q.reverse)
      (querySortLe_trans q.reverse)
      ((st.items.map (·.2)).filter (matchesSpec now q))
    cases hl : q.limit with
    | none => exact hsorted
    | some n =>
      simp only [applyLimit]
      by_cases hn : n = 0
      · rw [if_pos hn]; exact hsorted
      · rw [if_neg hn]
        exact List.Pairwise.sublist (List.take_sublist n _) hsorted

open AtomicMemoryDb in
/-- Witness for C4 (amended): three items under colon-free partition keys;
the query for `pk = "p"`, empty prefix, ascending, `limit 1` returns the
sort-key-least `"p"` item only. -/
theorem query_spec_witness :
    (query 0
      (set emptyDb [{ pk := "p", sk := "b" }, { pk := "p", sk := "a" },
        { pk := "q", sk := "c" }])
      { pk := "p", sk := some "", limit := some 1 }).2 =
      [{ pk := "p", sk := "a" }] := by
  have h := query_spec 0
    (set emptyDb [{ pk := "p", sk := "b" }, { pk := "p", sk := "a" },
      { pk := "q", sk := "c" }])
    { pk := "p", sk := some "", limit := some 1 } (by decide) (by decide)
  exact h.1.trans (by decide)

namespace AtomicMemoryDb

/-- The logical (pure) reading of a point lookup: the stored item at the key
when it is present and not expired. -/
def logicalGet (now : Nat) (st : DbState) (key : AtomicDbItemKey) :
    Option AtomicDbItem :=
  match mapGet (getKey key) st.items with
  | some it => if isExpired now it.ttl then none else some it
  | none => none

theorem get_snd (now : Nat) (st : DbState) (key : AtomicDbItemKey) :
    (get now st key).2 = logicalGet now st key := by
  unfold get cleanExpiredItems logicalGet
  cases h : mapGet (getKey key) st.items with
  | none => simp [h]
  | some it =>
    by_cases hexp : isExpired now it.ttl = true <;> simp [h, hexp]

theorem get_items_eq (now : Nat) (st : DbState) (key : AtomicDbItemKey) :
    (get now st key).1.items = (cleanExpiredItems now st.items (getKey key)).1 := by
  unfold get
  by_cases hc : (cleanExpiredItems now st.items (getKey key)).2 = true <;>
    simp [hc]

theorem get_preserves_logical (now : Nat) (st : DbState)
    (key : AtomicDbItemKey) (hn : nodupKeys st.items) (key' : AtomicDbItemKey) :
    logicalGet now (get now st key).1 key' = logicalGet now st key' := by
  unfold logicalGet
  rw [get_items_eq]
  unfold cleanExpiredItems
  cases h : mapGet (getKey key) st.items with
  | none => simp [h]
  | some it =>
    by_cases hexp : isExpired now it.ttl = true
    · simp only [h, hexp, eq_self_iff_true, if_true]
      by_cases hk : getKey key' = getKey key
      · rw [hk, mapGet_mapDel_self hn, h]
        simp [hexp]
      · rw [mapGet_mapDel_ne hk]
    · simp [h, hexp]

theorem nodupKeys_get (now : Nat) (st : DbState) (key : AtomicDbItemKey)
    (hn : nodupKeys st.items) : nodupKeys (get now st key).1.items := by
  unfold get cleanExpiredItems
  cases h : mapGet (getKey key) st.items with
  | none => simpa [h] using hn
  | some it =>
    by_cases hexp : isExpired now it.ttl = true
    · simpa [h, hexp] using nodupKeys_mapDel (getKey key) hn
    · simpa [h, hexp] using hn

theorem getMany_eq_logical (now : Nat) :
    ∀ (keys : List AtomicDbItemKey) (st : DbState), nodupKeys st.items →
    (getMany now st keys).2 = keys.map (logicalGet now st) := by
  intro keys
  induction keys with
  | nil => intro st _; rfl
  | cons k rest ih =>
    intro st hn
    show (get now st k).2 :: (getMany now (get now st k).1 rest).2 =
      logicalGet now st k :: rest.map (logicalGet now st)
    rw [get_snd, ih _ (nodupKeys_get now st k hn)]
    refine congrArg _ (List.map_congr_left ?_)
    intro x _
    exact get_preserves_logical now st k hn x

end AtomicMemoryDb

namespace AtomicLRUCache

/-- mnemonist's `lru-cache-with-delete`, modelled as a fixed capacity plus a
most-recent-first association list of entries. -/
structure LRUCache where
  cap : Nat
  entries : List (String × AtomicDbItem)
deriving DecidableEq

/-- Pure observation of the cache contents (no recency update). -/
def lruLookup (c : LRUCache) (k : String) : Option AtomicDbItem :=
  (c.entries.find? (fun e => decide (e.1 = k))).map (·.2)

/-- `cache.get`: on a hit the entry moves to the most-recent position. -/
def lruGet (c : LRUCache) (k : String) : LRUCache × Option AtomicDbItem :=
  match c.entries.find? (fun e => decide (e.1 = k)) with
  | none => (c, none)
  | some e =>
    ({ c with entries := (k, e.2) :: c.entries.eraseP (fun x => decide (x.1 = k)) },
     some e.2)

/-- `cache.set`: update-in-place-and-promote an existing key, else insert at
the front and evict the least recently used entry beyond capacity. -/
def lruSet (c : LRUCache) (k : String) (v : AtomicDbItem) : LRUCache :=
  if c.entries.any (fun e => decide (e.1 = k)) then
    { c with entries := (k, v) :: c.entries.eraseP (fun e => decide (e.1 = k)) }
  else
    { c with entries := ((k, v) :: c.entries).take c.cap }

/-- `cache.delete`. -/
def lruDel (c : LRUCache) (k : String) : LRUCache :=
  { c with entries := c.entries.eraseP (fun e => decide (e.1 = k)) }

/-- A real LRU cache never holds two entries with the same key. -/
def lruWF (c : LRUCache) : Prop := (c.entries.map (·.1)).Nodup

instance lruWFDec (c : LRUCache) : Decidable (lruWF c) :=
  inferInstanceAs
    (Decidable ((c.entries.map (fun e : String × AtomicDbItem => e.1)).Nodup))

/-- The decorator's own key serialization, `` `${key.pk}/${key.sk}` ``. -/
def cacheKey (k : AtomicDbItemKey) : String := k.pk ++ "/" ++ k.sk

/-- The cache key of an item. -/
def cacheKeyItem (it : AtomicDbItem) : String := cacheKey ⟨it.pk, it.sk⟩

/-- The wrapped `AtomicDbInterface` backend with state type `σ`, restricted
to the operations the verified claims exercise.  Stateful calls return the
post-state even when they fail: the decorator observes the thrown error and
whatever state the backend left behind, never a rollback. -/
structure Backend (σ : Type) where
  getMany : σ → List AtomicDbItemKey → σ × List (Option AtomicDbItem)
  set : σ → List AtomicDbItem → σ × Except DbError Unit
  setAtomic : σ → List AtomicDbItem → List AtomicDbItemLock →
    σ × Except DbError Unit

/-- The in-memory store as a backend (at a fixed current time). -/
def memBackend (now : Nat) : Backend AtomicMemoryDb.DbState :=
  { getMany := fun s keys => AtomicMemoryDb.getMany now s keys,
    set := fun s items => (AtomicMemoryDb.set s items, Except.ok ()),
    setAtomic := fun s items locks => AtomicMemoryDb.setAtomic s items locks }

/-- A backend whose writes always throw — a test double exercising the
decorator's failure-propagation paths. -/
def failingBackend : Backend Unit :=
  { getMany := fun s keys => (s, keys.map (fun _ => none)),
    set := fun s _ => (s, Except.error DbError.backendFailure),
    setAtomic := fun s _ _ => (s, Except.error DbError.backendFailure) }

/-- First pass of `AtomicLRUCache.getMany`: probe the cache for every key in
input order (`cache.get` refreshes recency), record the hit values
positionally (`none` marks a hole), and collect the missing keys in input
order. -/
def cachePass1 (c : LRUCache) : List AtomicDbItemKey →
    LRUCache × List (Option AtomicDbItem) × List AtomicDbItemKey
  | [] => (c, [], [])
  | k :: rest =>
    match lruGet c (cacheKey k) with
    | (c1, some v) =>
      let rs := cachePass1 c1 rest
      (rs.1, some v :: rs.2.1, rs.2.2)
    | (c1, none) =>
      let rs := cachePass1 c1 rest
      (rs.1, none :: rs.2.1, k :: rs.2.2)

/-- `dbResults.forEach((item, i) => { results[missingIndices[i]] = item })`:
fill the holes of the hit list with the backend results, in order. -/
def fillMisses : List (Option AtomicDbItem) → List (Option AtomicDbItem) →
    List (Option AtomicDbItem)
  | [], _ => []
  | some v :: rest, ds => some v :: fillMisses rest ds
  | none :: rest, [] => none :: fillMisses rest []
  | none :: rest, d :: ds => d :: fillMisses rest ds

/-- `if (item !== undefined) this.cache.set(...)`: memoize the found fetched
items. -/
def memoize (c : LRUCache)
    (ps : List (AtomicDbItemKey × Option AtomicDbItem)) : LRUCache :=
  ps.foldl (fun c p =>
    match p.2 with
    | some it => lruSet c (cacheKey p.1) it
    | none => c) c

/-- The repopulation loop shared by the decorator's `set` and `setAtomic`:
`itemArray.forEach((item) => this.cache.set(this.getKey(item), item))`. -/
def foldSet (items : List AtomicDbItem) (c : LRUCache) : LRUCache :=
  items.foldl (fun c it => lruSet c (cacheKeyItem it) it) c

/-- The invalidation loop of the decorator's `set` (and `delete`):
`itemArray.forEach((item) => this.cache.delete(this.getKey(item)))`. -/
def foldDel (items : List AtomicDbItem) (c : LRUCache) : LRUCache :=
  items.foldl (fun c it => lruDel c (cacheKeyItem it)) c

/-- `AtomicLRUCache.getMany`: probe the cache, then — only when some keys
are missing (`if (missingKeys.length > 0)`) — fetch the missing keys from
the backend in one batched call, memoize the found ones, and fill the
holes. -/
def getMany {σ : Type} (B : Backend σ) (s : σ) (c : LRUCache)
    (keys : List AtomicDbItemKey) :
    (σ × LRUCache) × List (Option AtomicDbItem) :=
  if (cachePass1 c keys).2.2.isEmpty then
    ((s, (cachePass1 c keys).1), (cachePass1 c keys).2.1)
  else
    (((B.getMany s (cachePass1 c keys).2.2).1,
      memoize (cachePass1 c keys).1
        ((cachePass1 c keys).2.2.zip (B.getMany s (cachePass1 c keys).2.2).2)),
     fillMisses (cachePass1 c keys).2.1 (B.getMany s (cachePass1 c keys).2.2).2)

/-- `AtomicLRUCache.set`: invalidate every affected key *before* the
write-through, then repopulate only once the backend write returned. -/
def set {σ : Type} (B : Backend σ) (s : σ) (c : LRUCache)
    (items : List AtomicDbItem) : (σ × LRUCache) × Except DbError Unit :=
  match (B.set s items).2 with
  | Except.error e => (((B.set s items).1, foldDel items c), Except.error e)
  | Except.ok _ =>
    (((B.set s items).1, foldSet items (foldDel items c)), Except.ok ())

/-- `AtomicLRUCache.setAtomic`: delegate unchanged; touch the cache only
after a successful commit (no prior invalidation, unlike `set`). -/
def setAtomic {σ : Type} (B : Backend σ) (s : σ) (c : LRUCache)
    (items : List AtomicDbItem) (locks : List AtomicDbItemLock) :
    (σ × LRUCache) × Except DbError Unit :=
  match (B.setAtomic s items locks).2 with
  | Except.error e => (((B.setAtomic s items locks).1, c), Except.error e)
  | Except.ok _ =>
    (((B.setAtomic s items locks).1, foldSet items c), Except.ok ())

end AtomicLRUCache

namespace AtomicLRUCache

/-! ### `find?` / `eraseP` / `take` plumbing -/

theorem find?_eraseP_of_neg {α : Type} {p q : α → Bool}
    (h : ∀ x, q x = true → p x = false) :
    ∀ (l : List α), (l.eraseP q).find? p = l.find? p := by
  intro l
  induction l with
  | nil => rfl
  | cons a rest ih =>
    by_cases hq : q a = true
    · rw [List.eraseP_cons_of_pos hq]
      rw [List.find?_cons_of_neg rest (by simp [h a hq])]
    · rw [List.eraseP_cons_of_neg hq]
      by_cases hp : p a = true
      · rw [List.find?_cons_of_pos _ hp, List.find?_cons_of_pos _ hp]
      · rw [List.find?_cons_of_neg _ hp, List.find?_cons_of_neg _ hp, ih]

theorem find?_eraseP_none {α : Type} {p q : α → Bool} {l : List α}
    (h : l.find? p = none) : (l.eraseP q).find? p = none := by
  rw [List.find?_eq_none] at h ⊢
  intro x hx
  exact h x ((List.eraseP_sublist l).subset hx)

theorem find?_take_eq_some {α : Type} {p : α → Bool} {x : α} :
    ∀ {l : List α} {n : Nat}, (l.take n).find? p = some x → l.find? p = some x := by
  intro l
  induction l with
  | nil => intro n h; simp at h
  | cons a rest ih =>
    intro n h
    cases n with
    | zero => simp [List.take] at h
    | succ m =>
      rw [List.take_succ_cons] at h
      by_cases hp : p a = true
      · rw [List.find?_cons_of_pos _ hp] at h ⊢
        exact h
      · rw [List.find?_cons_of_neg _ hp] at h ⊢
        exact ih h

theorem keys_eraseP_not_mem {β : Type} {l : List (String × β)} {k : String}
    (h : (l.map (·.1)).Nodup) :
    k ∉ (l.eraseP (fun e => decide (e.1 = k))).map (·.1) := by
  induction l with
  | nil => simp
  | cons e rest ih =>
    simp only [List.map_cons, List.nodup_cons] at h
    by_cases he : e.1 = k
    · rw [List.eraseP_cons_of_pos (by simp [he])]
      rw [← he]
      exact h.1
    · rw [List.eraseP_cons_of_neg (by simp [he])]
      simp only [List.map_cons, List.mem_cons]
      push_neg
      exact ⟨fun hh => he hh.symm, ih h.2⟩

/-! ### Observations of the LRU operations -/

theorem lruGet_snd (c : LRUCache) (k : String) :
    (lruGet c k).2 = lruLookup c k := by
  unfold lruGet lruLookup
  cases h : c.entries.find? (fun e => decide (e.1 = k)) <;> simp [h]

theorem lruGet_preserves_lookup (c : LRUCache) (k k' : String) :
    lruLookup (lruGet c k).1 k' = lruLookup c k' := by
  unfold lruGet lruLookup
  cases h : c.entries.find? (fun e => decide (e.1 = k)) with
  | none => rfl
  | some e =>
    have he1 : e.1 = k := by simpa using List.find?_some h
    dsimp only
    by_cases hk : k = k'
    · subst hk
      rw [List.find?_cons_of_pos _ (by simp)]
      simp [h]
    · rw [List.find?_cons_of_neg _ (by simp [hk])]
      rw [find?_eraseP_of_neg (fun x hx => ?_)]
      simp only [decide_eq_true_eq] at hx
      simp [hx, hk]

theorem lruLookup_lruSet_char {c : LRUCache} {k' k : String}
    {v w : AtomicDbItem} (h : lruLookup (lruSet c k' v) k = some w) :
    (k = k' ∧ w = v) ∨ lruLookup c k = some w := by
  unfold lruSet at h
  by_cases hmem : c.entries.any (fun e => decide (e.1 = k')) = true
  · rw [if_pos hmem] at h
    unfold lruLookup at h ⊢
    by_cases hk : k' = k
    · rw [List.find?_cons_of_pos _ (by simp [hk])] at h
      simp only [Option.map_some'] at h
      left
      exact ⟨hk.symm, by simpa using h.symm⟩
    · rw [List.find?_cons_of_neg _ (by simp [hk])] at h
      rw [find?_eraseP_of_neg (fun x hx => ?_)] at h
      · right; exact h
      · simp only [decide_eq_true_eq] at hx
        simp [hx, hk]
  · rw [if_neg hmem] at h
    unfold lruLookup at h ⊢
    cases hf : ((((k', v) :: c.entries).take c.cap).find?
        (fun e => decide (e.1 = k))) with
    | none => rw [hf] at h; simp at h
    | some e =>
      rw [hf] at h
      have hfull := find?_take_eq_some hf
      by_cases hk : k' = k
      · rw [List.find?_cons_of_pos _ (by simp [hk])] at hfull
        simp only [Option.map_some'] at h
        cases hfull
        left
        simp only [Option.some.injEq] at h
        exact ⟨hk.symm, h.symm⟩
      · rw [List.find?_cons_of_neg _ (by simp [hk])] at hfull
        right
        rw [hfull]
        exact h

theorem lruLookup_lruDel_self {c : LRUCache} (hwf : lruWF c) (k : String) :
    lruLookup (lruDel c k) k = none := by
  unfold lruDel lruLookup
  have : ((c.entries.eraseP (fun e => decide (e.1 = k))).find?
      (fun e => decide (e.1 = k))) = none := by
    rw [List.find?_eq_none]
    intro x hx
    simp only [decide_eq_true_eq]
    intro hx1
    have hmem : x.1 ∈ (c.entries.eraseP (fun e => decide (e.1 = k))).map (·.1) :=
      List.mem_map_of_mem (fun e : String × AtomicDbItem => e.1) hx
    exact keys_eraseP_not_mem hwf (hx1 ▸ hmem)
  simp [this]

theorem lruLookup_lruDel_none {c : LRUCache} {k : String} (k' : String)
    (h : lruLookup c k = none) : lruLookup (lruDel c k') k = none := by
  unfold lruLookup at h
  unfold lruDel lruLookup
  cases hf : c.entries.find? (fun e => decide (e.1 = k)) with
  | none => simp [find?_eraseP_none hf]
  | some e => rw [hf] at h; simp at h

theorem lruWF_lruDel (c : LRUCache) (k : String) (hwf : lruWF c) :
    lruWF (lruDel c k) :=
  List.Nodup.sublist (List.Sublist.map _ (List.eraseP_sublist c.entries)) hwf

/-! ### The invalidation and repopulation folds -/

theorem foldDel_wf : ∀ (items : List AtomicDbItem) (c : LRUCache),
    lruWF c → lruWF (foldDel items c) := by
  intro items
  induction items with
  | nil => intro c h; exact h
  | cons a rest ih =>
    intro c h
    exact ih _ (lruWF_lruDel c (cacheKeyItem a) h)

theorem foldDel_none : ∀ (items : List AtomicDbItem) (c : LRUCache)
    (k : String), lruLookup c k = none → lruLookup (foldDel items c) k = none := by
  intro items
  induction items with
  | nil => intro c k h; exact h
  | cons a rest ih =>
    intro c k h
    exact ih _ k (lruLookup_lruDel_none (cacheKeyItem a) h)

theorem foldDel_lookup : ∀ (items : List AtomicDbItem) (c : LRUCache),
    lruWF c → ∀ it ∈ items, lruLookup (foldDel items c) (cacheKeyItem it) = none := by
  intro items
  induction items with
  | nil => intro c _ it hit; cases hit
  | cons a rest ih =>
    intro c hwf it hit
    rcases List.mem_cons.mp hit with rfl | hit
    · exact foldDel_none rest _ _ (lruLookup_lruDel_self hwf (cacheKeyItem it))
    · exact ih _ (lruWF_lruDel c (cacheKeyItem a) hwf) it hit

theorem foldSet_char : ∀ (items : List AtomicDbItem) (c : LRUCache)
    {k : String} {w : AtomicDbItem},
    lruLookup (foldSet items c) k = some w →
    (w ∈ items ∧ cacheKeyItem w = k) ∨ lruLookup c k = some w := by
  intro items
  induction items with
  | nil => intro c k w h; right; exact h
  | cons a rest ih =>
    intro c k w h
    rcases ih _ h with ⟨hw, hk⟩ | hlook
    · exact Or.inl ⟨List.mem_cons_of_mem a hw, hk⟩
    · rcases lruLookup_lruSet_char hlook with ⟨hk, hwv⟩ | h0
      · rw [hwv]
        exact Or.inl ⟨List.mem_cons_self a rest, hk.symm⟩
      · exact Or.inr h0

theorem memoize_char : ∀ (ps : List (AtomicDbItemKey × Option AtomicDbItem))
    (c : LRUCache) {k : String} {w : AtomicDbItem},
    lruLookup (memoize c ps) k = some w →
    (∃ p ∈ ps, p.2 = some w ∧ cacheKey p.1 = k) ∨ lruLookup c k = some w := by
  intro ps
  induction ps with
  | nil => intro c k w h; right; exact h
  | cons p rest ih =>
    intro c k w h
    cases hp : p.2 with
    | none =>
      have hm : memoize c (p :: rest) = memoize c rest := by
        unfold memoize
        rw [List.foldl_cons, hp]
      rw [hm] at h
      rcases ih _ h with ⟨q, hq, hq2⟩ | h0
      · exact Or.inl ⟨q, List.mem_cons_of_mem p hq, hq2⟩
      · exact Or.inr h0
    | some v =>
      have hm : memoize c (p :: rest) = memoize (lruSet c (cacheKey p.1) v) rest := by
        unfold memoize
        rw [List.foldl_cons, hp]
      rw [hm] at h
      rcases ih _ h with ⟨q, hq, hq2⟩ | h0
      · exact Or.inl ⟨q, List.mem_cons_of_mem p hq, hq2⟩
      · rcases lruLookup_lruSet_char h0 with ⟨hk, hwv⟩ | h1
        · exact Or.inl ⟨p, List.mem_cons_self p rest, by rw [hp, hwv], hk.symm⟩
        · exact Or.inr h1

/-! ### The two passes of the decorator's `getMany` -/

theorem cachePass1_spec : ∀ (keys : List AtomicDbItemKey) (c : LRUCache),
    (∀ k', lruLookup (cachePass1 c keys).1 k' = lruLookup c k') ∧
    (cachePass1 c keys).2.1 = keys.map (fun k => lruLookup c (cacheKey k)) ∧
    (cachePass1 c keys).2.2 =
      keys.filter (fun k => (lruLookup c (cacheKey k)).isNone) := by
  intro keys
  induction keys with
  | nil => intro c; exact ⟨fun _ => rfl, rfl, rfl⟩
  | cons k rest ih =>
    intro c
    rcases hg : lruGet c (cacheKey k) with ⟨c1, hit⟩
    have hhit : hit = lruLookup c (cacheKey k) := by
      rw [← lruGet_snd c (cacheKey k), hg]
    have hgp : ∀ k', lruLookup c1 k' = lruLookup c k' := by
      intro k'
      have : c1 = (lruGet c (cacheKey k)).1 := by rw [hg]
      rw [this]
      exact lruGet_preserves_lookup c (cacheKey k) k'
    obtain ⟨ihp, ih1, ih2⟩ := ih c1
    have hmapc : rest.map (fun k' => lruLookup c1 (cacheKey k')) =
        rest.map (fun k' => lruLookup c (cacheKey k')) :=
      List.map_congr_left (fun x _ => hgp (cacheKey x))
    have hfilc : rest.filter (fun k' => (lruLookup c1 (cacheKey k')).isNone) =
        rest.filter (fun k' => (lruLookup c (cacheKey k')).isNone) :=
      List.filter_congr (fun x _ => by rw [hgp (cacheKey x)])
    cases hit with
    | some v =>
      have hl : lruLookup c (cacheKey k) = some v := hhit.symm
      have hstep : cachePass1 c (k :: rest) =
          ((cachePass1 c1 rest).1, some v :: (cachePass1 c1 rest).2.1,
           (cachePass1 c1 rest).2.2) := by
        simp only [cachePass1, hg]
      rw [hstep]
      refine ⟨fun k' => (ihp k').trans (hgp k'), ?_, ?_⟩
      · rw [List.map_cons, hl, ih1, hmapc]
      · rw [List.filter_cons, hl]
        simp only [Option.isNone_some, Bool.false_eq_true, if_false]
        rw [ih2, hfilc]
    | none =>
      have hl : lruLookup c (cacheKey k) = none := hhit.symm
      have hstep : cachePass1 c (k :: rest) =
          ((cachePass1 c1 rest).1, none :: (cachePass1 c1 rest).2.1,
           k :: (cachePass1 c1 rest).2.2) := by
        simp only [cachePass1, hg]
      rw [hstep]
      refine ⟨fun k' => (ihp k').trans (hgp k'), ?_, ?_⟩
      · rw [List.map_cons, hl, ih1, hmapc]
      · rw [List.filter_cons, hl]
        simp only [Option.isNone_none, if_true]
        rw [ih2, hfilc]

theorem zip_self_map {α β : Type} (l : List α) (g : α → β) :
    l.zip (l.map g) = l.map (fun a => (a, g a)) := by
  induction l with
  | nil => rfl
  | cons a rest ih => simp [ih]

theorem fillMisses_spec (f g : AtomicDbItemKey → Option AtomicDbItem) :
    ∀ (keys : List AtomicDbItemKey),
    fillMisses (keys.map f) ((keys.filter (fun k => (f k).isNone)).map g) =
      keys.map (fun k => (f k).or (g k)) := by
  intro keys
  induction keys with
  | nil => rfl
  | cons k rest ih =>
    cases hf : f k with
    | some v =>
      rw [List.map_cons, hf, List.filter_cons]
      simp only [hf, Option.isNone_some, Bool.false_eq_true, if_false]
      rw [show fillMisses (some v :: rest.map f)
          ((rest.filter (fun k => (f k).isNone)).map g) =
          some v :: fillMisses (rest.map f)
            ((rest.filter (fun k => (f k).isNone)).map g) from rfl]
      rw [ih, List.map_cons, hf]
      rfl
    | none =>
      rw [List.map_cons, hf, List.filter_cons]
      simp only [hf, Option.isNone_none, if_true]
      rw [List.map_cons]
      rw [show fillMisses (none :: rest.map f)
          (g k :: (rest.filter (fun k => (f k).isNone)).map g) =
          g k :: fillMisses (rest.map f)
            ((rest.filter (fun k => (f k).isNone)).map g) from rfl]
      rw [ih, List.map_cons, hf]
      rfl

end AtomicLRUCache

open AtomicMemoryDb AtomicLRUCache in
/-- **C5.** For every list of keys (over a well-formed store), `getMany`
returns a list of exactly the input's length whose `i`-th element is the
stored (non-expired) item under `keys[i]`, or the absent marker `none` —
never an error.  The cache decorator wrapping the plain store likewise
preserves length and order: its `i`-th element is the cached value when the
key is cached, and otherwise the backend's answer; the keys passed on to the
backend's one batched call are exactly the uncached ones in input order; and
every newly fetched found item is memoized (its cache entry afterwards holds
the fetched value for its cache key, unless evicted under capacity
pressure). -/
theorem getMany_order_and_cache (now : Nat) (st : DbState) (c : LRUCache)
    (keys : List AtomicDbItemKey) (hn : nodupKeys st.items) :
    (AtomicMemoryDb.getMany now st keys).2 = keys.map (logicalGet now st) ∧
    (AtomicMemoryDb.getMany now st keys).2.length = keys.length ∧
    (AtomicLRUCache.getMany (memBackend now) st c keys).2 =
      keys.map (fun k => (lruLookup c (cacheKey k)).or (logicalGet now st k)) ∧
    (AtomicLRUCache.getMany (memBackend now) st c keys).2.length = keys.length ∧
    (cachePass1 c keys).2.2 =
      keys.filter (fun k => (lruLookup c (cacheKey k)).isNone) ∧
    (∀ k ∈ keys, lruLookup c (cacheKey k) = none →
      lruLookup (AtomicLRUCache.getMany (memBackend now) st c keys).1.2
          (cacheKey k) = none ∨
      ∃ k', k' ∈ keys ∧ lruLookup c (cacheKey k') = none ∧
        cacheKey k' = cacheKey k ∧
        lruLookup (AtomicLRUCache.getMany (memBackend now) st c keys).1.2
            (cacheKey k) = logicalGet now st k') := by
  obtain ⟨hp, h1, h2⟩ := cachePass1_spec keys c
  have hplain := getMany_eq_logical now keys st hn
  refine ⟨hplain, by rw [hplain, List.length_map], ?_⟩
  by_cases hemp : (cachePass1 c keys).2.2.isEmpty = true
  · have hnil : (cachePass1 c keys).2.2 = [] := List.isEmpty_iff.mp hemp
    have hall : ∀ k ∈ keys, (lruLookup c (cacheKey k)).isNone = false := by
      intro k hk
      by_contra hne
      have : (lruLookup c (cacheKey k)).isNone = true := by
        cases hb : (lruLookup c (cacheKey k)).isNone
        · exact absurd hb hne
        · rfl
      have : k ∈ keys.filter (fun k => (lruLookup c (cacheKey k)).isNone) :=
        List.mem_filter.mpr ⟨hk, this⟩
      rw [← h2, hnil] at this
      cases this
    have hK : AtomicLRUCache.getMany (memBackend now) st c keys =
        ((st, (cachePass1 c keys).1), (cachePass1 c keys).2.1) := by
      unfold AtomicLRUCache.getMany
      rw [if_pos hemp]
    have hres : (AtomicLRUCache.getMany (memBackend now) st c keys).2 =
        keys.map (fun k => (lruLookup c (cacheKey k)).or (logicalGet now st k)) := by
      rw [hK, h1]
      refine List.map_congr_left ?_
      intro k hk
      cases hfk : lruLookup c (cacheKey k) with
      | none =>
        have hcontra := hall k hk
        rw [hfk] at hcontra
        simp at hcontra
      | some v => rfl
    refine ⟨hres, by rw [hres, List.length_map], h2, ?_⟩
    intro k hk hknone
    have := hall k hk
    rw [hknone] at this
    cases this
  · have hds : ((memBackend now).getMany st (cachePass1 c keys).2.2).2 =
        ((cachePass1 c keys).2.2).map (logicalGet now st) :=
      getMany_eq_logical now _ st hn
    have hK : AtomicLRUCache.getMany (memBackend now) st c keys =
        ((((memBackend now).getMany st (cachePass1 c keys).2.2).1,
          memoize (cachePass1 c keys).1
            ((cachePass1 c keys).2.2.zip
              ((memBackend now).getMany st (cachePass1 c keys).2.2).2)),
         fillMisses (cachePass1 c keys).2.1
           ((memBackend now).getMany st (cachePass1 c keys).2.2).2) := by
      unfold AtomicLRUCache.getMany
      rw [if_neg hemp]
    have hres : (AtomicLRUCache.getMany (memBackend now) st c keys).2 =
        keys.map (fun k => (lruLookup c (cacheKey k)).or (logicalGet now st k)) := by
      rw [hK]
      show fillMisses (cachePass1 c keys).2.1
          ((memBackend now).getMany st (cachePass1 c keys).2.2).2 = _
      rw [hds, h1, h2]
      exact fillMisses_spec (fun k => lruLookup c (cacheKey k))
        (logicalGet now st) keys
    refine ⟨hres, by rw [hres, List.length_map], h2, ?_⟩
    intro k hk hknone
    have hcache : (AtomicLRUCache.getMany (memBackend now) st c keys).1.2 =
        memoize (cachePass1 c keys).1
          ((cachePass1 c keys).2.2.zip
            ((memBackend now).getMany st (cachePass1 c keys).2.2).2) := by
      rw [hK]
    have hzip : (cachePass1 c keys).2.2.zip
        ((memBackend now).getMany st (cachePass1 c keys).2.2).2 =
        ((cachePass1 c keys).2.2).map (fun a => (a, logicalGet now st a)) := by
      rw [hds]
      exact zip_self_map _ _
    cases hfin : lruLookup
        (AtomicLRUCache.getMany (memBackend now) st c keys).1.2 (cacheKey k) with
    | none => exact Or.inl rfl
    | some w =>
      rw [hcache] at hfin
      rcases memoize_char _ _ hfin with ⟨p, hpmem, hp2, hpk⟩ | hold
      · rw [hzip] at hpmem
        obtain ⟨k', hk'mem, hpe⟩ := List.mem_map.mp hpmem
        have hk'keys : k' ∈ keys ∧
            (lruLookup c (cacheKey k')).isNone = true := by
          have : k' ∈ keys.filter (fun k => (lruLookup c (cacheKey k)).isNone) :=
            h2 ▸ hk'mem
          exact List.mem_filter.mp this
        have hck : cacheKey k' = cacheKey k := by rw [← hpk, ← hpe]
        have hval : logicalGet now st k' = some w := by
          rw [← hp2, ← hpe]
        exact Or.inr ⟨k', hk'keys.1,
          Option.isNone_iff_eq_none.mp hk'keys.2, hck, hval.symm⟩
      · rw [hp (cacheKey k), hknone] at hold
        cases hold

open AtomicMemoryDb AtomicLRUCache in
/-- Witness for C5: three keys — one cached (served from the cache, even
though the backend holds a different value), one uncached but stored, one
missing (absent marker, no error) — in input order, for both the plain store
and the decorator. -/
theorem getMany_order_and_cache_witness :
    (AtomicLRUCache.getMany (memBackend 0)
      (set emptyDb [{ pk := "p", sk := "a", data := some "A" },
        { pk := "p", sk := "b", data := some "B" }])
      { cap := 10, entries := [("p/a", { pk := "p", sk := "a", data := some "CACHED" })] }
      [⟨"p", "a"⟩, ⟨"p", "b"⟩, ⟨"q", "z"⟩]).2 =
      [some { pk := "p", sk := "a", data := some "CACHED" },
       some { pk := "p", sk := "b", data := some "B" }, none] ∧
    (AtomicMemoryDb.getMany 0
      (set emptyDb [{ pk := "p", sk := "a", data := some "A" },
        { pk := "p", sk := "b", data := some "B" }])
      [⟨"p", "a"⟩, ⟨"p", "b"⟩, ⟨"q", "z"⟩]).2 =
      [some { pk := "p", sk := "a", data := some "A" },
       some { pk := "p", sk := "b", data := some "B" }, none] := by
  have h := getMany_order_and_cache 0
    (set emptyDb [{ pk := "p", sk := "a", data := some "A" },
      { pk := "p", sk := "b", data := some "B" }])
    { cap := 10, entries := [("p/a", { pk := "p", sk := "a", data := some "CACHED" })] }
    [⟨"p", "a"⟩, ⟨"p", "b"⟩, ⟨"q", "z"⟩] (by decide)
  exact ⟨h.2.2.1.trans (by decide), h.1.trans (by decide)⟩

open AtomicLRUCache in
/-- Counterexample to C6 as stated: with a capacity-1 cache and a successful
two-item backend write, the repopulation of the second item evicts the first,
so afterwards the affected key `"a/1"` has *no* cache entry — the cache does
not hold the newly written value for every affected key. -/
theorem cacheSet_eviction_counterexample :
    (AtomicLRUCache.set (memBackend 0) AtomicMemoryDb.emptyDb
      { cap := 1, entries := [] }
      [{ pk := "a", sk := "1" }, { pk := "a", sk := "2" }]).2 = Except.ok () ∧
    lruLookup (AtomicLRUCache.set (memBackend 0) AtomicMemoryDb.emptyDb
      { cap := 1, entries := [] }
      [{ pk := "a", sk := "1" }, { pk := "a", sk := "2" }]).1.2 "a/1" = none := by
  decide

open AtomicLRUCache in
/-- **C6 (amended).** The decorator's `set` removes the cache entry of every
affected key before issuing the backend write, so that if the backend write
throws, no affected key has a cache entry afterward; if the backend write
succeeds, every affected key's entry is either one of the newly written
values for that cache key or absent (evicted under LRU capacity pressure) —
never a stale pre-write value.  The backend outcome and state are propagated
unchanged. -/
theorem cacheSet_invalidate_then_write {σ : Type} (B : Backend σ) (s : σ)
    (c : LRUCache) (items : List AtomicDbItem) (hwf : lruWF c) :
    (AtomicLRUCache.set B s c items).2 = (B.set s items).2 ∧
    (AtomicLRUCache.set B s c items).1.1 = (B.set s items).1 ∧
    (∀ e, (B.set s items).2 = Except.error e →
      (AtomicLRUCache.set B s c items).1.2 = foldDel items c ∧
      ∀ it ∈ items,
        lruLookup (AtomicLRUCache.set B s c items).1.2 (cacheKeyItem it) = none) ∧
    (∀ it ∈ items, ∀ v,
      lruLookup (AtomicLRUCache.set B s c items).1.2 (cacheKeyItem it) = some v →
      v ∈ items ∧ cacheKeyItem v = cacheKeyItem it) := by
  cases hr : (B.set s items).2 with
  | error e0 =>
    have hK : AtomicLRUCache.set B s c items =
        (((B.set s items).1, foldDel items c), Except.error e0) := by
      unfold AtomicLRUCache.set
      rw [hr]
    refine ⟨by rw [hK], by rw [hK], ?_, ?_⟩
    · intro e _
      refine ⟨by rw [hK], ?_⟩
      intro it hit
      rw [hK]
      exact foldDel_lookup items c hwf it hit
    · intro it hit v hv
      rw [hK] at hv
      dsimp only at hv
      rw [foldDel_lookup items c hwf it hit] at hv
      cases hv
  | ok u =>
    cases u
    have hK : AtomicLRUCache.set B s c items =
        (((B.set s items).1, foldSet items (foldDel items c)), Except.ok ()) := by
      unfold AtomicLRUCache.set
      rw [hr]
    refine ⟨by rw [hK], by rw [hK], ?_, ?_⟩
    · intro e he
      exact Except.noConfusion he
    · intro it hit v hv
      rw [hK] at hv
      dsimp only at hv
      rcases foldSet_char items _ hv with ⟨hw, hk⟩ | hold
      · exact ⟨hw, hk⟩
      · rw [foldDel_lookup items c hwf it hit] at hold
        cases hold

open AtomicLRUCache in
/-- Witness for C6 (amended): a failing backend write leaves the previously
cached (stale) entry of the affected key removed; a successful single-item
write through the in-memory backend leaves only newly written values
observable for the affected key. -/
theorem cacheSet_invalidate_then_write_witness :
    lruLookup (AtomicLRUCache.set failingBackend ()
        { cap := 2, entries := [("a/1", { pk := "a", sk := "1", data := some "stale" })] }
        [{ pk := "a", sk := "1", data := some "new" }]).1.2
      (cacheKeyItem { pk := "a", sk := "1", data := some "new" }) = none ∧
    (({ pk := "b", sk := "2" } : AtomicDbItem) ∈
        [({ pk := "b", sk := "2" } : AtomicDbItem)] ∧
      cacheKeyItem ({ pk := "b", sk := "2" } : AtomicDbItem) =
        cacheKeyItem ({ pk := "b", sk := "2" } : AtomicDbItem)) := by
  constructor
  · exact ((cacheSet_invalidate_then_write failingBackend ()
      { cap := 2, entries := [("a/1", { pk := "a", sk := "1", data := some "stale" })] }
      [{ pk := "a", sk := "1", data := some "new" }] (by decide)).2.2.1
      DbError.backendFailure (by decide)).2 _ (List.mem_singleton_self _)
  · exact (cacheSet_invalidate_then_write (memBackend 0) AtomicMemoryDb.emptyDb
      { cap := 2, entries := [] } [{ pk := "b", sk := "2" }] (by decide)).2.2.2
      { pk := "b", sk := "2" } (List.mem_singleton_self _)
      { pk := "b", sk := "2" } (by decide)

open AtomicLRUCache in
/-- **C10.** The decorator's `setAtomic` touches the cache only after the
wrapped backend's `setAtomic` returns successfully: on a thrown error
(race-condition or backend failure) the cache is exactly what it was before —
no entry is invalidated beforehand, unlike `set`; on success the cache entry
of each written item's key is set to that new item value (the repopulation
fold over the items).  The backend outcome and state are propagated
unchanged. -/
theorem cacheSetAtomic_cache_untouched_on_error {σ : Type} (B : Backend σ)
    (s : σ) (c : LRUCache) (items : List AtomicDbItem)
    (locks : List AtomicDbItemLock) :
    (AtomicLRUCache.setAtomic B s c items locks).2 =
      (B.setAtomic s items locks).2 ∧
    (AtomicLRUCache.setAtomic B s c items locks).1.1 =
      (B.setAtomic s items locks).1 ∧
    (∀ e, (B.setAtomic s items locks).2 = Except.error e →
      (AtomicLRUCache.setAtomic B s c items locks).1.2 = c) ∧
    ((B.setAtomic s items locks).2 = Except.ok () →
      (AtomicLRUCache.setAtomic B s c items locks).1.2 = foldSet items c) := by
  cases hr : (B.setAtomic s items locks).2 with
  | error e0 =>
    have hK : AtomicLRUCache.setAtomic B s c items locks =
        (((B.setAtomic s items locks).1, c), Except.error e0) := by
      unfold AtomicLRUCache.setAtomic
      rw [hr]
    refine ⟨by rw [hK], by rw [hK], ?_, ?_⟩
    · intro e _
      rw [hK]
    · intro hok
      exact Except.noConfusion hok
  | ok u =>
    cases u
    have hK : AtomicLRUCache.setAtomic B s c items locks =
        (((B.setAtomic s items locks).1, foldSet items c), Except.ok ()) := by
      unfold AtomicLRUCache.setAtomic
      rw [hr]
    refine ⟨by rw [hK], by rw [hK], ?_, ?_⟩
    · intro e he
      exact Except.noConfusion he
    · intro _
      rw [hK]

open AtomicMemoryDb AtomicLRUCache in
/-- Witness for C10: a race-condition failure (no persisted lock) leaves a
non-empty cache exactly unchanged; a successful commit repopulates the cache
with the written item. -/
theorem cacheSetAtomic_cache_untouched_on_error_witness :
    (AtomicLRUCache.setAtomic (memBackend 0) emptyDb
      { cap := 3, entries := [("x/y", { pk := "x", sk := "y", data := some "K" })] }
      [{ pk := "a", sk := "b" }] [{ pk := "a", sk := "c", version := 0 }]).1.2 =
      { cap := 3, entries := [("x/y", { pk := "x", sk := "y", data := some "K" })] } ∧
    (AtomicLRUCache.setAtomic (memBackend 0)
      { items := [], locks := [("p:L", { pk := "p", sk := "L", version := 7 })], ctr := 8 }
      { cap := 3, entries := [("x/y", { pk := "x", sk := "y", data := some "K" })] }
      [{ pk := "p", sk := "d", data := some "D" }]
      [{ pk := "p", sk := "L", version := 7 }]).1.2 =
      foldSet [{ pk := "p", sk := "d", data := some "D" }]
        { cap := 3, entries := [("x/y", { pk := "x", sk := "y", data := some "K" })] } := by
  constructor
  · exact (cacheSetAtomic_cache_untouched_on_error (memBackend 0) emptyDb
      { cap := 3, entries := [("x/y", { pk := "x", sk := "y", data := some "K" })] }
      [{ pk := "a", sk := "b" }] [{ pk := "a", sk := "c", version := 0 }]).2.2.1
      DbError.raceCondition (by decide)
  · exact (cacheSetAtomic_cache_untouched_on_error (memBackend 0)
      { items := [], locks := [("p:L", { pk := "p", sk := "L", version := 7 })], ctr := 8 }
      { cap := 3, entries := [("x/y", { pk := "x", sk := "y", data := some "K" })] }
      [{ pk := "p", sk := "d", data := some "D" }]
      [{ pk := "p", sk := "L", version := 7 }]).2.2.2 (by decide)

example :
    (AtomicMemoryDb.getLock 100 AtomicMemoryDb.emptyDb ⟨"p", "s"⟩).2 =
    { pk := "p", sk := "s", version := 0, ttl := some 86500 } := by decide
